import Mathlib

/-!
# Verification of the cdchunking content-defined chunking library

This file shallowly embeds the core of the `cdchunking` Rust crate:
the stream engine (`ChunkStream::read`, `Slices::next`, `ChunkInfoStream::next`
from `src/lib.rs`), the `SizeLimited` combinator, and the concrete boundary
strategies (`FixedSizeChunker`, `ZPAQ`, `GearChunker`,
`NormalizedChunkingGearChunker`, `AEChunker`, `RAMChunker`,
`MaybeOptimizedRAMChunker`, `MIIChunker`, `PCIChunker`, `PCIChunkerNonConst`,
`BFBCChunker`, `TTTDChunker`).

Conventions of the embedding:
* Rust `u8` / `u32` / `usize` values are `Nat`; every operation that wraps in
  Rust (`Wrapping<u32>`, `wrapping_add`, `<<`) is followed by an explicit
  `% 2 ^ 32`; `usize` subtraction is `Nat` subtraction (truncated), and where
  a subtraction could underflow in Rust this is called out and captured by an
  explicit side condition.
* A strategy is a state type `σ` together with
  `find_boundary : σ → List Nat → Option Nat × σ` (the returned `σ` is the
  mutated `self`) mirroring the `ChunkerImpl` trait.  `reset` restores the
  post-construction state, so runs model it by substituting the freshly
  constructed value.
* Readers deliver a list of blocks; a block models the bytes returned by
  one `Read::read` call.
-/

set_option maxHeartbeats 1000000

/-! ## Generic per-byte scanning

Most strategies are loops of the form
`for (i, &b) in data.iter().enumerate() { ...state update...; maybe return Some(i) }`.
`scanB` is that loop shape: `next s b = (cutHere, s₂)` processes one byte. -/

/-- One pass of a per-byte strategy loop over a byte view: returns the offset of
the first byte at which the step function reports a cut, together with the
state after the processed bytes (on a cut, after the mutations the loop body
performed up to the `return`). -/
def scanB {σ : Type} (next : σ → Nat → Bool × σ) : σ → List Nat → Option Nat × σ
  | s, [] => (none, s)
  | s, b :: rest =>
    match next s b with
    | (true, s₂) => (some 0, s₂)
    | (false, s₂) =>
      let r := scanB next s₂ rest
      (r.1.map (fun n => n + 1), r.2)

theorem scanB_nil {σ : Type} (next : σ → Nat → Bool × σ) (s : σ) :
    scanB next s [] = (none, s) := rfl

theorem scanB_cons {σ : Type} (next : σ → Nat → Bool × σ) (s : σ) (b : Nat) (rest : List Nat) :
    scanB next s (b :: rest) =
      if (next s b).1 then (some 0, (next s b).2)
      else ((scanB next (next s b).2 rest).1.map (fun n => n + 1),
            (scanB next (next s b).2 rest).2) := by
  show (match next s b with
        | (true, s₂) => (some 0, s₂)
        | (false, s₂) =>
          let r := scanB next s₂ rest
          (r.1.map (fun n => n + 1), r.2)) = _
  rcases h : next s b with ⟨c, s₂⟩
  cases c <;> simp [h]

theorem scanB_cons_cut {σ : Type} (next : σ → Nat → Bool × σ) (s : σ) (b : Nat)
    (rest : List Nat) (h : (next s b).1 = true) :
    scanB next s (b :: rest) = (some 0, (next s b).2) := by
  rw [scanB_cons, if_pos h]

theorem scanB_cons_nocut {σ : Type} (next : σ → Nat → Bool × σ) (s : σ) (b : Nat)
    (rest : List Nat) (h : (next s b).1 = false) :
    scanB next s (b :: rest) =
      ((scanB next (next s b).2 rest).1.map (fun n => n + 1),
       (scanB next (next s b).2 rest).2) := by
  rw [scanB_cons, if_neg (by simp [h])]

/-- A cut reported by `scanB` is always strictly inside the scanned view. -/
theorem scanB_some_lt {σ : Type} (next : σ → Nat → Bool × σ) :
    ∀ (d : List Nat) (s : σ) (k : Nat), (scanB next s d).1 = some k → k < d.length := by
  intro d
  induction d with
  | nil => intro s k h; simp [scanB] at h
  | cons b rest ih =>
    intro s k h
    rw [scanB_cons] at h
    by_cases hc : (next s b).1
    · simp [hc] at h
      simp only [List.length_cons]
      omega
    · simp [hc] at h
      obtain ⟨m, hm, hk⟩ := h
      have := ih (next s b).2 m hm
      simp only [List.length_cons]
      omega

/-- Splitting a `scanB` pass at a seam: scanning `a ++ c` either cuts inside
`a`, or continues into `c` from the state left by `a`, with offsets shifted by
`a.length`. -/
theorem scanB_append {σ : Type} (next : σ → Nat → Bool × σ) :
    ∀ (a : List Nat) (s : σ) (c : List Nat),
      scanB next s (a ++ c) =
        match scanB next s a with
        | (some k, s₂) => (some k, s₂)
        | (none, s₂) =>
          ((scanB next s₂ c).1.map (fun n => n + a.length), (scanB next s₂ c).2) := by
  intro a
  induction a with
  | nil =>
    intro s c
    rw [List.nil_append]
    show scanB next s c = ((scanB next s c).1.map (fun n => n + ([] : List Nat).length),
                           (scanB next s c).2)
    rcases hr : scanB next s c with ⟨o, t⟩
    cases o <;> simp_all
  | cons b rest ih =>
    intro s c
    rw [List.cons_append, scanB_cons, scanB_cons]
    by_cases hc : (next s b).1
    · simp [hc]
    · simp only [hc, if_false]
      rw [ih (next s b).2 c]
      rcases hr : scanB next (next s b).2 rest with ⟨o, t⟩
      cases o with
      | none =>
        rcases hq : scanB next t c with ⟨o₂, t₂⟩
        cases o₂ with
        | none => simp
        | some m => simp [Nat.add_assoc]
      | some k => simp

/-! ## Driving a strategy over a fragmented input

`runFrags fb init s frags base` models the engine feeding the views
`frags` to the strategy one after the other: on a cut at view offset `k` the
absolute offset `base + k` is recorded, the strategy is reset (the engine
emits `End` and calls `reset`, restoring the construction state `init`), and
scanning resumes on the remainder of the view, exactly as `ChunkStream::read`
resumes at `buffer[pos..len]` after advancing `pos` by `split + 1`.  The
engine asserts `pos + split < len`; a strategy violating that bound aborts
the run (the `else []` branch models the panic). -/
def runFrags {σ : Type} (fb : σ → List Nat → Option Nat × σ) (init : σ) :
    σ → List (List Nat) → Nat → List Nat
  | _, [], _ => []
  | s, [] :: rest, base => runFrags fb init s rest base
  | s, (b :: bs) :: rest, base =>
    match fb s (b :: bs) with
    | (some k, _) =>
      if k < (b :: bs).length then
        (base + k) :: runFrags fb init init ((b :: bs).drop (k + 1) :: rest) (base + k + 1)
      else []
    | (none, s₂) => runFrags fb init s₂ rest (base + (b :: bs).length)
termination_by s frags base => frags.join.length + frags.length
decreasing_by
  · simp [List.join]
  · simp [List.join]
    omega
  · simp [List.join]
    omega

theorem runFrags_nil {σ : Type} (fb : σ → List Nat → Option Nat × σ) (init s : σ) (base : Nat) :
    runFrags fb init s [] base = [] := by
  simp [runFrags]

theorem runFrags_emptyfrag {σ : Type} (fb : σ → List Nat → Option Nat × σ) (init s : σ)
    (rest : List (List Nat)) (base : Nat) :
    runFrags fb init s ([] :: rest) base = runFrags fb init s rest base := by
  simp [runFrags]

theorem runFrags_cons_some {σ : Type} (fb : σ → List Nat → Option Nat × σ) (init s s₂ : σ)
    (b : Nat) (bs : List Nat) (rest : List (List Nat)) (base k : Nat)
    (hfb : fb s (b :: bs) = (some k, s₂)) :
    runFrags fb init s ((b :: bs) :: rest) base =
      if k < (b :: bs).length then
        (base + k) :: runFrags fb init init ((b :: bs).drop (k + 1) :: rest) (base + k + 1)
      else [] := by
  rw [runFrags, hfb]

theorem runFrags_cons_none {σ : Type} (fb : σ → List Nat → Option Nat × σ) (init s s₂ : σ)
    (b : Nat) (bs : List Nat) (rest : List (List Nat)) (base : Nat)
    (hfb : fb s (b :: bs) = (none, s₂)) :
    runFrags fb init s ((b :: bs) :: rest) base =
      runFrags fb init s₂ rest (base + (b :: bs).length) := by
  rw [runFrags, hfb]

/-- The absolute cut offsets a per-byte strategy produces on a single
contiguous input, resetting to `init` after each cut. -/
def cutsScan {σ : Type} (next : σ → Nat → Bool × σ) (init : σ) (s : σ) (X : List Nat)
    (base : Nat) : List Nat :=
  match h : (scanB next s X).1 with
  | some k => (base + k) :: cutsScan next init init (X.drop (k + 1)) (base + k + 1)
  | none => []
termination_by X.length
decreasing_by
  have := scanB_some_lt next X s k h
  simp
  omega

theorem cutsScan_none {σ : Type} (next : σ → Nat → Bool × σ) (init s : σ) (X : List Nat)
    (base : Nat) (h : (scanB next s X).1 = none) :
    cutsScan next init s X base = [] := by
  rw [cutsScan]
  split <;> simp_all

theorem cutsScan_some {σ : Type} (next : σ → Nat → Bool × σ) (init s : σ) (X : List Nat)
    (base k : Nat) (h : (scanB next s X).1 = some k) :
    cutsScan next init s X base =
      (base + k) :: cutsScan next init init (X.drop (k + 1)) (base + k + 1) := by
  rw [cutsScan]
  split <;> simp_all

/-! ## Simulation of a batch `find_boundary` by a per-byte step function -/

/-- `SimFB fb next α Inv`: on every state satisfying `Inv`, the batch
implementation `fb` reports the same cut offset as the per-byte scan of
`next`, and when no cut is found it leaves (the abstraction `α` of) the same
state, still satisfying `Inv`. -/
def SimFB {σc σa : Type} (fb : σc → List Nat → Option Nat × σc)
    (next : σa → Nat → Bool × σa) (α : σc → σa) (Inv : σc → Prop) : Prop :=
  ∀ s d, Inv s →
    (fb s d).1 = (scanB next (α s) d).1 ∧
    ((fb s d).1 = none → α (fb s d).2 = (scanB next (α s) d).2 ∧ Inv (fb s d).2)

/-- A strategy defined directly as a per-byte scan simulates itself. -/
theorem simFB_scanB {σ : Type} (next : σ → Nat → Bool × σ) :
    SimFB (scanB next) next id (fun _ => True) :=
  fun _ _ _ => ⟨rfl, fun _ => ⟨rfl, trivial⟩⟩

/-- `cutsScan` ignores a no-cut block that has already been scanned. -/
theorem cutsScan_append_none {σ : Type} (next : σ → Nat → Bool × σ) (init s t : σ)
    (a J : List Nat) (base : Nat) (h : scanB next s a = (none, t)) :
    cutsScan next init s (a ++ J) base = cutsScan next init t J (base + a.length) := by
  have happ := scanB_append next a s J
  rw [h] at happ
  cases hq : (scanB next t J).1 with
  | none =>
    have h1 : (scanB next s (a ++ J)).1 = none := by rw [happ]; simp [hq]
    rw [cutsScan_none next init s (a ++ J) base h1, cutsScan_none next init t J _ hq]
  | some m =>
    have h1 : (scanB next s (a ++ J)).1 = some (m + a.length) := by rw [happ]; simp [hq]
    rw [cutsScan_some next init s (a ++ J) base _ h1, cutsScan_some next init t J _ _ hq]
    have hdrop : (a ++ J).drop (m + a.length + 1) = J.drop (m + 1) := by
      rw [List.drop_append_eq_append_drop]
      have h2 : a.drop (m + a.length + 1) = [] := by
        apply List.drop_eq_nil_of_le
        omega
      rw [h2]
      simp only [List.nil_append]
      congr 1
      omega
    rw [hdrop]
    have he : base + (m + a.length) = base + a.length + m := by omega
    rw [he]

/-- Main bridge: driving a batch strategy over fragments equals the per-byte
cut computation over the concatenated input, under simulation. -/
theorem runFrags_eq_cutsScan {σc σa : Type} (fb : σc → List Nat → Option Nat × σc)
    (next : σa → Nat → Bool × σa) (α : σc → σa) (Inv : σc → Prop) (init : σc)
    (hsim : SimFB fb next α Inv) (hinit : Inv init) :
    ∀ (n : Nat) (frags : List (List Nat)) (s : σc) (base : Nat),
      frags.join.length + frags.length ≤ n → Inv s →
      runFrags fb init s frags base = cutsScan next (α init) (α s) frags.join base := by
  intro n
  induction n with
  | zero =>
    intro frags s base hle hs
    match frags with
    | [] =>
      rw [runFrags_nil]
      exact (cutsScan_none next (α init) (α s) _ base (by simp [scanB])).symm
    | f :: rest => simp at hle
  | succ n ih =>
    intro frags s base hle hs
    match frags with
    | [] =>
      rw [runFrags_nil]
      exact (cutsScan_none next (α init) (α s) _ base (by simp [scanB])).symm
    | [] :: rest =>
      rw [runFrags_emptyfrag]
      have := ih rest s base (by simp at hle ⊢; omega) hs
      rw [this]
      simp
    | (b :: bs) :: rest =>
      rcases hfb : fb s (b :: bs) with ⟨o, s₂⟩
      have hfst := (hsim s (b :: bs) hs).1
      rw [hfb] at hfst
      cases o with
      | some k =>
        have hscan : (scanB next (α s) (b :: bs)).1 = some k := hfst.symm
        have hk : k < (b :: bs).length := scanB_some_lt next _ _ _ hscan
        rw [runFrags_cons_some fb init s s₂ b bs rest base k hfb, if_pos hk]
        have happ := scanB_append next (b :: bs) (α s) rest.join
        rcases hsplit : scanB next (α s) (b :: bs) with ⟨o₂, t₂⟩
        rw [hsplit] at happ
        rw [hsplit] at hscan
        simp at hscan
        subst hscan
        have h1 : (scanB next (α s) ((b :: bs) ++ rest.join)).1 = some k := by rw [happ]
        have hjoin : ((b :: bs) :: rest).join = (b :: bs) ++ rest.join := by simp
        rw [hjoin, cutsScan_some next (α init) (α s) _ base k h1]
        have hdrop : ((b :: bs) ++ rest.join).drop (k + 1) = (b :: bs).drop (k + 1) ++ rest.join := by
          rw [List.drop_append_eq_append_drop]
          have h2 : rest.join.drop (k + 1 - (b :: bs).length) = rest.join := by
            have : k + 1 - (b :: bs).length = 0 := by omega
            rw [this]
            rfl
          rw [h2]
        rw [hdrop]
        have hrec := ih ((b :: bs).drop (k + 1) :: rest) init (base + k + 1)
          (by
            simp at hle ⊢
            omega) hinit
        rw [hrec]
        simp
      | none =>
        have hsnd := (hsim s (b :: bs) hs).2
        rw [hfb] at hsnd
        obtain ⟨hα, hInv⟩ := hsnd rfl
        have hscan : (scanB next (α s) (b :: bs)).1 = none := hfst.symm
        rw [runFrags_cons_none fb init s s₂ b bs rest base hfb]
        have hrec := ih rest s₂ (base + (b :: bs).length)
          (by simp at hle ⊢; omega) hInv
        rw [hrec]
        have hjoin : ((b :: bs) :: rest).join = (b :: bs) ++ rest.join := by simp
        rw [hjoin]
        rw [cutsScan_append_none next (α init) (α s) (α s₂) (b :: bs) rest.join base
          (by
            rcases hs2 : scanB next (α s) (b :: bs) with ⟨o₂, t₂⟩
            rw [hs2] at hscan hα
            simp at hscan
            subst hscan
            simp at hα
            rw [hα])]

/-- Seam invariance for any strategy that simulates a per-byte scan:
fragmenting the input does not change the absolute cut offsets. -/
theorem seam_of_sim {σc σa : Type} (fb : σc → List Nat → Option Nat × σc)
    (next : σa → Nat → Bool × σa) (α : σc → σa) (Inv : σc → Prop) (init : σc)
    (hsim : SimFB fb next α Inv) (hinit : Inv init) (frags : List (List Nat)) (base : Nat) :
    runFrags fb init init frags base = runFrags fb init init [frags.join] base := by
  rw [runFrags_eq_cutsScan fb next α Inv init hsim hinit
      (frags.join.length + frags.length) frags init base (le_refl _) hinit,
    runFrags_eq_cutsScan fb next α Inv init hsim hinit
      ([frags.join].join.length + 1) [frags.join] init base (by simp) hinit]
  simp

/-- Seam invariance of every strategy that is literally a per-byte scan. -/
theorem seam_scanB {σ : Type} (next : σ → Nat → Bool × σ) (init : σ)
    (frags : List (List Nat)) (base : Nat) :
    runFrags (scanB next) init init frags base =
      runFrags (scanB next) init init [frags.join] base :=
  seam_of_sim (scanB next) next id (fun _ => True) init (simFB_scanB next) trivial frags base

/-! ## Relating two per-byte machines byte for byte -/

/-- If two per-byte step functions agree on the cut flag and preserve a state
relation, their scans report the same offsets and keep related states. -/
theorem scanB_rel {σa σb : Type} (nextA : σa → Nat → Bool × σa) (nextB : σb → Nat → Bool × σb)
    (R : σa → σb → Prop)
    (hstep : ∀ s t b, R s t → (nextA s b).1 = (nextB t b).1 ∧ R (nextA s b).2 (nextB t b).2) :
    ∀ (d : List Nat) (s : σa) (t : σb), R s t →
      (scanB nextA s d).1 = (scanB nextB t d).1 ∧
      ((scanB nextA s d).1 = none → R (scanB nextA s d).2 (scanB nextB t d).2) := by
  intro d
  induction d with
  | nil => intro s t hR; exact ⟨rfl, fun _ => hR⟩
  | cons b rest ih =>
    intro s t hR
    obtain ⟨hflag, hnext⟩ := hstep s t b hR
    rw [scanB_cons, scanB_cons, hflag]
    by_cases hc : (nextB t b).1
    · simp [hc]
    · simp only [hc, Bool.false_eq_true, if_false]
      obtain ⟨ih1, ih2⟩ := ih (nextA s b).2 (nextB t b).2 hnext
      constructor
      · rw [ih1]
      · intro hn
        have hnone : (scanB nextA (nextA s b).2 rest).1 = none := by
          rcases ho : (scanB nextA (nextA s b).2 rest).1 with _ | m
          · rfl
          · rw [ho] at hn; simp at hn
        exact ih2 hnone

/-- Two byte-for-byte related machines produce the same cut offset sequence. -/
theorem cutsScan_rel {σa σb : Type} (nextA : σa → Nat → Bool × σa) (nextB : σb → Nat → Bool × σb)
    (R : σa → σb → Prop)
    (hstep : ∀ s t b, R s t → (nextA s b).1 = (nextB t b).1 ∧ R (nextA s b).2 (nextB t b).2)
    (inia : σa) (inib : σb) (hini : R inia inib) :
    ∀ (n : Nat) (X : List Nat) (s : σa) (t : σb) (base : Nat), X.length ≤ n → R s t →
      cutsScan nextA inia s X base = cutsScan nextB inib t X base := by
  intro n
  induction n with
  | zero =>
    intro X s t base hle hR
    have hX : X = [] := by cases X <;> simp_all
    subst hX
    rw [cutsScan_none _ _ _ _ _ (by simp [scanB]), cutsScan_none _ _ _ _ _ (by simp [scanB])]
  | succ n ih =>
    intro X s t base hle hR
    have hfst := (scanB_rel nextA nextB R hstep X s t hR).1
    cases ho : (scanB nextA s X).1 with
    | none =>
      rw [cutsScan_none nextA inia s X base ho,
        cutsScan_none nextB inib t X base (by rw [← hfst]; exact ho)]
    | some k =>
      have hk := scanB_some_lt nextA X s k ho
      rw [cutsScan_some nextA inia s X base k ho,
        cutsScan_some nextB inib t X base k (by rw [← hfst]; exact ho)]
      have := ih (X.drop (k + 1)) inia inib (base + k + 1) (by simp; omega) hini
      rw [this]

/-! ## Concrete strategies

### FixedSizeChunker (`src/fsc.rs`)

The `FixedSizeChunkerState` is inlined as the `pos` field.  The returned
offset `chunk_size - pos - 1` is a `usize` subtraction in Rust; here it is
truncated `Nat` subtraction, and the condition `pos + 1 ≤ chunk_size` marks
exactly when the Rust expression does not underflow. -/
structure FixedSizeChunker where
  chunk_size : Nat
  pos : Nat
deriving Repr, DecidableEq

def FixedSizeChunker.new (chunk_size : Nat) : FixedSizeChunker :=
  { chunk_size := chunk_size, pos := 0 }

def FixedSizeChunker.find_boundary (c : FixedSizeChunker) (data : List Nat) :
    Option Nat × FixedSizeChunker :=
  if c.chunk_size ≤ c.pos + data.length then
    (some (c.chunk_size - c.pos - 1), c)
  else
    (none, { c with pos := c.pos + data.length })

/-- Per-byte presentation of `FixedSizeChunker`: a boundary is declared on the
byte that makes `pos + 1` reach `chunk_size`. -/
def FixedSizeChunker.step (c : FixedSizeChunker) (_ : Nat) : Bool × FixedSizeChunker :=
  (decide (c.pos + 1 = c.chunk_size), { c with pos := c.pos + 1 })

/-! ### ZPAQ (`src/lib.rs`)

`o1` is the 256-entry byte table, modelled as a function (only indices below
256 are ever used, because `c1` is a byte). -/
def HM1 : Nat := 314159265

def HM2 : Nat := 271828182

structure ZPAQ where
  nbits : Nat
  c1 : Nat
  o1 : Nat → Nat
  h : Nat

def ZPAQ.new (nbits : Nat) : ZPAQ :=
  { nbits := 32 - nbits, c1 := 0, o1 := fun _ => 0, h := 0 }

def ZPAQ.update (z : ZPAQ) (byte : Nat) : Bool × ZPAQ :=
  let h2 := if byte = z.o1 z.c1 then HM1 * (z.h + (byte + 1)) % 2 ^ 32
            else HM2 * (z.h + (byte + 1)) % 2 ^ 32
  let z2 : ZPAQ :=
    { z with h := h2, o1 := fun x => if x = z.c1 then byte else z.o1 x, c1 := byte }
  (decide (h2 < 2 ^ z.nbits), z2)

def ZPAQ.find_boundary : ZPAQ → List Nat → Option Nat × ZPAQ :=
  scanB ZPAQ.update

/-! ### Gear and normalized-chunking Gear (`src/gear.rs`) -/
def gearTable : List Nat := [
  0xd3eb979d, 0xd6d83960, 0x3cd24090, 0x702e952e, 0x50c47f4a, 0xdb56d7b6, 0x1470b666, 0x917d698c,
  0x4b222ddb, 0x9e61352d, 0xb1bb53ca, 0x73e47b3b, 0x48bc9c75, 0xcd61fb37, 0x3f3b76ab, 0x4e703f12,
  0x8192bf76, 0x3b4bcfbf, 0xb1096934, 0x6dcd3b70, 0x3b62b5e9, 0xa3a3fd75, 0x3f4a0b40, 0x104f764c,
  0x3aa01a20, 0xa0f97902, 0x54d5407a, 0x1de7011a, 0xd17e58a1, 0x6705c00a, 0x26ada853, 0xfdfd5ed4,
  0x867d636f, 0x0a56b662, 0xe9cb1ee2, 0xe472c33a, 0x1a06c290, 0x73d90737, 0xa1885d47, 0x6b593527,
  0xd77ca484, 0xfd43ca59, 0xf6798265, 0x8473ce32, 0x1dfa57af, 0xa7a7f764, 0x034199bf, 0xd92df7c0,
  0xc336657d, 0xb1d3cece, 0x28000293, 0x0c665d67, 0x19b6e719, 0x0b248029, 0xabf92644, 0x528ef61c,
  0x90cc63dc, 0x41b9ddca, 0x6608ac26, 0xccedfa3e, 0x58428c9c, 0xc611c58b, 0xb45fe506, 0x47e8e9ab,
  0x9395f52a, 0x0b92fd50, 0x486bc906, 0x7c50e4b7, 0x74eefe1b, 0xf7a390f7, 0x759ce338, 0x8adcb273,
  0x4aff20df, 0x1b8a1de9, 0xfe5bc7f1, 0x0d9289df, 0x722989a7, 0x15a2b030, 0x808d6900, 0x37d16afd,
  0xe859a17d, 0x65e3a83a, 0x7f5231e4, 0xa8caf398, 0x5749d956, 0xa8b5edde, 0xc3f90d02, 0x8b5ab74e,
  0x115b85ba, 0x57a81d60, 0xc571ffd0, 0xa7b52ed0, 0x0de8ed32, 0xfdd83d5a, 0x53a853b2, 0x1275193f,
  0xceec15c6, 0xb348f31d, 0x5d91f26b, 0xfc4b8c3b, 0x3cc2c8d9, 0x2b613d1e, 0xb6e587eb, 0xb3e81eee,
  0x444af107, 0x06586733, 0x98147a42, 0xf1f0c4ba, 0x7d95c1f0, 0x050bd680, 0xc9f2f924, 0xe1279f28,
  0x73d9e2b2, 0xdbd34e1e, 0xaf520344, 0xdc99a1cb, 0xfd68fbcf, 0x9be753b0, 0x0d4c09d5, 0xbba7712f,
  0xca358455, 0xf50f43db, 0xbb069de7, 0xdc200aba, 0x6080521f, 0x4fd6ed4e, 0xacaa0eed, 0x6ab677a1,
  0xc26028f9, 0x6bba9c53, 0x5ce949d4, 0x21711186, 0xdc7aa7bb, 0x9845db08, 0x726bd0e0, 0xd73b6b0e,
  0x87615762, 0xbc61f58f, 0x99589c58, 0x7924edec, 0x0a9148d0, 0x0122f447, 0x1511018d, 0x95f2baa6,
  0xd94bef95, 0x8feb8737, 0x41e83af9, 0x67fed3af, 0xc195482e, 0xab54854a, 0x26645909, 0x66454394,
  0x016225a5, 0x96adc68b, 0x6a6eb020, 0x967a1788, 0xcc314db9, 0x4d27dd83, 0x0abffdca, 0x5dacf213,
  0x7d6d2126, 0x854090d4, 0x3f8dcb4f, 0xc3e23d4e, 0xd99303ae, 0x37ac2ffd, 0x4e14f338, 0x9305c22d,
  0xcebe04f9, 0xde0b5a05, 0x0bb4274f, 0x24ae495d, 0xfe4e59bd, 0x1d18166e, 0xd346dd0d, 0xbde388d9,
  0x5f18a658, 0xcf1ef53f, 0xe2b8ab87, 0x9e97a024, 0xda9c7313, 0x3319d136, 0x1961fb76, 0x261853d7,
  0x8e605cd6, 0x583cac11, 0x6a449a3f, 0xf39dd03a, 0x35a4007b, 0x6e752d1a, 0xe048f028, 0x31c256ab,
  0x93bb9d77, 0x14bb5521, 0x80d5ebf4, 0x68422ba7, 0x9f226cf1, 0xc0a82467, 0xa45b8002, 0x5e512680,
  0xfa57dd1c, 0x8083f360, 0xea8d15fa, 0x83ad9409, 0x881e0cc1, 0x8d4aa576, 0x53ef83c1, 0x160b1560,
  0x8d8ed76a, 0x39319339, 0xbe0e9994, 0xcf52f560, 0x15a2a853, 0x09f6d3ff, 0xbc8920a7, 0xd6c92114,
  0xd9f3360f, 0xe4f3f680, 0x12730d34, 0xcf104091, 0x21124198, 0x7ae8cada, 0xb194894d, 0xa58b3219,
  0x8a2f692d, 0x27549dd9, 0x97055806, 0x80e3f331, 0xe23a2323, 0x3e7eafc7, 0x0de30268, 0xe8ef2539,
  0xe8ba3247, 0x1866f211, 0xf7502a7b, 0x16633364, 0x5d10629c, 0xbd245d16, 0x713eac0d, 0xb6cd9109,
  0x401a19f1, 0x8714069d, 0xe50f2f08, 0x7b209708, 0x08951d28, 0x2fa47147, 0x3aa8b7db, 0x7f7bf5ac,
  0x8c493103, 0x85d3c670, 0xc3c70275, 0x7dbc72d6, 0x060a9752, 0x6e37c74e, 0xf773837f, 0xac8702b4]

/-- `TABLE[b]` for a byte `b`. -/
def TABLE (b : Nat) : Nat := gearTable.getD b 0

structure GearState where
  hash : Nat
  pos : Nat
deriving Repr, DecidableEq

def GearState.ingest (st : GearState) (b : Nat) : GearState :=
  { hash := (st.hash * 2 % 2 ^ 32 + TABLE b) % 2 ^ 32, pos := st.pos + 1 }

def GearState.check_hash (st : GearState) (mask : Nat) : Bool :=
  decide (st.hash &&& mask = 0)

structure GearChunker where
  mask : Nat
  state : GearState
deriving Repr, DecidableEq

def GearChunker.new (mask : Nat) : GearChunker :=
  { mask := mask, state := { hash := 0, pos := 0 } }

def GearChunker.step (c : GearChunker) (b : Nat) : Bool × GearChunker :=
  let st := c.state.ingest b
  (st.check_hash c.mask, { c with state := st })

def GearChunker.find_boundary : GearChunker → List Nat → Option Nat × GearChunker :=
  scanB GearChunker.step

structure NormalizedChunkingGearChunker where
  lower_mask : Nat
  upper_mask : Nat
  target_chunk_size : Nat
  state : GearState
deriving Repr, DecidableEq

def NormalizedChunkingGearChunker.new (lower_mask upper_mask target_chunk_size : Nat) :
    NormalizedChunkingGearChunker :=
  { lower_mask := lower_mask, upper_mask := upper_mask,
    target_chunk_size := target_chunk_size, state := { hash := 0, pos := 0 } }

def NormalizedChunkingGearChunker.step (c : NormalizedChunkingGearChunker) (b : Nat) :
    Bool × NormalizedChunkingGearChunker :=
  let st := c.state.ingest b
  let mask := if st.pos ≤ c.target_chunk_size then c.lower_mask else c.upper_mask
  (st.check_hash mask, { c with state := st })

def NormalizedChunkingGearChunker.find_boundary :
    NormalizedChunkingGearChunker → List Nat → Option Nat × NormalizedChunkingGearChunker :=
  scanB NormalizedChunkingGearChunker.step

/-! ### MIIChunker (`src/mii.rs`)

The `MIIChunkerState` is inlined.  On the byte that completes a run of the
threshold length the Rust loop returns before `previous_value` is updated,
which the step function reproduces. -/
structure MIIChunker where
  interval_length_threshold : Nat
  increment_run_length : Nat
  previous_value : Option Nat
deriving Repr, DecidableEq

def MIIChunker.new (interval_length_threshold : Nat) : MIIChunker :=
  { interval_length_threshold := interval_length_threshold,
    increment_run_length := 0, previous_value := none }

def MIIChunker.step (c : MIIChunker) (b : Nat) : Bool × MIIChunker :=
  match c.previous_value with
  | some previous_value =>
    if previous_value < b then
      if c.increment_run_length + 1 = c.interval_length_threshold then
        (true, { c with increment_run_length := c.increment_run_length + 1 })
      else
        (false, { c with increment_run_length := c.increment_run_length + 1,
                         previous_value := some b })
    else (false, { c with increment_run_length := 0, previous_value := some b })
  | none => (false, { c with previous_value := some b })

def MIIChunker.find_boundary : MIIChunker → List Nat → Option Nat × MIIChunker :=
  scanB MIIChunker.step

/-! ### BFBCChunker (`src/bfbc.rs`)

The `BFBCChunkerState` is inlined as `pos` / `previous_byte`.  The comparison
happens before `ingest` (see the source comment), and the guard is the strict
`self.state.pos > self.min_chunk_size`.  `BFBCChunker::new` performs no
validation of `min_chunk_size`. -/
structure BFBCChunker where
  frequent_byte_pairs : List (Nat × Nat)
  min_chunk_size : Nat
  pos : Nat
  previous_byte : Option Nat
deriving Repr, DecidableEq

def BFBCChunker.new (frequent_byte_pairs : List (Nat × Nat)) (min_chunk_size : Nat) :
    BFBCChunker :=
  { frequent_byte_pairs := frequent_byte_pairs, min_chunk_size := min_chunk_size,
    pos := 0, previous_byte := none }

def BFBCChunker.ingest (c : BFBCChunker) (b : Nat) : BFBCChunker :=
  { c with pos := c.pos + 1, previous_byte := some b }

def BFBCChunker.match_against (c : BFBCChunker) (b : Nat) (pair : Nat × Nat) : Bool :=
  decide (b = pair.2) &&
    (match c.previous_byte with
     | some previous_byte => decide (previous_byte = pair.1)
     | none => false)

def BFBCChunker.step (c : BFBCChunker) (b : Nat) : Bool × BFBCChunker :=
  if c.min_chunk_size < c.pos ∧ c.frequent_byte_pairs.any (c.match_against b) then
    (true, c)
  else
    (false, c.ingest b)

def BFBCChunker.find_boundary : BFBCChunker → List Nat → Option Nat × BFBCChunker :=
  scanB BFBCChunker.step

/-! ### PCIChunker (`src/pci.rs`)

`u8::count_ones`, and the ring-buffer window.  The const generic `W` becomes
the `window_size` field.  `running_popcount` is a `u32`; the subtraction never
underflows on reachable states (the `debug_assert` in the source), and is
modelled as truncated `Nat` subtraction. -/
def popcnt : Nat → Nat
  | 0 => 0
  | n + 1 => (n + 1) % 2 + popcnt ((n + 1) / 2)
decreasing_by
  exact Nat.div_lt_self (Nat.succ_pos n) one_lt_two

structure PCIChunker where
  window_size : Nat
  one_bits_threshold : Nat
  window : List Nat
  pos : Nat
  running_popcount : Nat
deriving Repr, DecidableEq

def PCIChunker.new (window_size one_bits_threshold : Nat) : PCIChunker :=
  { window_size := window_size, one_bits_threshold := one_bits_threshold,
    window := List.replicate window_size 0, pos := 0, running_popcount := 0 }

def PCIChunker.is_window_full (c : PCIChunker) : Bool :=
  decide (c.window_size ≤ c.pos)

def PCIChunker.ingest_byte_update_popcount (c : PCIChunker) (b : Nat) : PCIChunker :=
  let i := c.pos % c.window_size
  let popcount_to_remove := popcnt (c.window.getD i 0)
  { c with running_popcount := c.running_popcount - popcount_to_remove + popcnt b,
           window := c.window.set i b,
           pos := c.pos + 1 }

def PCIChunker.step (c : PCIChunker) (b : Nat) : Bool × PCIChunker :=
  let c2 := c.ingest_byte_update_popcount b
  (c2.is_window_full && decide (c2.one_bits_threshold ≤ c2.running_popcount), c2)

def PCIChunker.find_boundary : PCIChunker → List Nat → Option Nat × PCIChunker :=
  scanB PCIChunker.step

/-! ### PCIChunkerNonConst (`src/pci.rs`)

The `VecDeque` window: `pop_front` then `push_back`. -/
structure PCIChunkerNonConst where
  one_bits_threshold : Nat
  window : List Nat
  pos : Nat
  running_popcount : Nat
  window_size : Nat
deriving Repr, DecidableEq

def PCIChunkerNonConst.new (window_size one_bits_threshold : Nat) : PCIChunkerNonConst :=
  { one_bits_threshold := one_bits_threshold, window := List.replicate window_size 0,
    pos := 0, running_popcount := 0, window_size := window_size }

def PCIChunkerNonConst.ingest_byte (c : PCIChunkerNonConst) (b : Nat) :
    Nat × PCIChunkerNonConst :=
  let c2 : PCIChunkerNonConst :=
    { c with running_popcount := c.running_popcount - popcnt (c.window.headD 0) + popcnt b,
             window := c.window.tail ++ [b],
             pos := c.pos + 1 }
  (c2.running_popcount, c2)

def PCIChunkerNonConst.step (c : PCIChunkerNonConst) (b : Nat) : Bool × PCIChunkerNonConst :=
  let r := c.ingest_byte b
  (decide (r.2.window_size ≤ r.2.pos) && decide (c.one_bits_threshold ≤ r.1), r.2)

def PCIChunkerNonConst.find_boundary :
    PCIChunkerNonConst → List Nat → Option Nat × PCIChunkerNonConst :=
  scanB PCIChunkerNonConst.step

/-! ### AEChunker (`src/ae.rs`)

The Rust constructor derives `window_size` from a target chunk size with an
`f64` rounding; the embedding is parameterised directly by the resulting
`window_size` (the spec admits both constructors).  `AEChunkerState` is
inlined.  The loop does not touch `pos`; on the no-cut path `find_boundary`
adds `data.len()` afterwards. -/
structure AEChunker where
  window_size : Nat
  max_value : Nat
  max_position : Nat
  pos : Nat
deriving Repr, DecidableEq

def AEChunker.new (window_size : Nat) : AEChunker :=
  { window_size := window_size, max_value := 0, max_position := 0, pos := 0 }

def AEChunker.loop : AEChunker → List Nat → Nat → Option Nat × AEChunker
  | c, [], _ => (none, c)
  | c, b :: rest, i =>
    let global_pos := c.pos + i
    if b ≤ c.max_value then
      if global_pos = c.max_position + c.window_size then (some i, c)
      else AEChunker.loop c rest (i + 1)
    else AEChunker.loop { c with max_value := b, max_position := global_pos } rest (i + 1)

def AEChunker.find_boundary (c : AEChunker) (data : List Nat) : Option Nat × AEChunker :=
  match AEChunker.loop c data 0 with
  | (some i, c2) => (some i, c2)
  | (none, c2) => (none, { c2 with pos := c2.pos + data.length })

/-- Per-byte presentation of `AEChunker` (the position counter advances with
every byte instead of at the end of the view). -/
def AEChunker.step (c : AEChunker) (b : Nat) : Bool × AEChunker :=
  if b ≤ c.max_value then
    if c.pos = c.max_position + c.window_size then (true, c)
    else (false, { c with pos := c.pos + 1 })
  else (false, { c with max_value := b, max_position := c.pos, pos := c.pos + 1 })

/-! ### RAMChunker (`src/ram.rs`)

`RAMState` is inlined; as in the source, `pos` advances by `data.len()` only
on the no-cut path. -/
structure RAMChunker where
  window_size : Nat
  maximum_value : Nat
  pos : Nat
deriving Repr, DecidableEq

def RAMChunker.new (window_size : Nat) : RAMChunker :=
  { window_size := window_size, maximum_value := 0, pos := 0 }

def RAMChunker.loop : RAMChunker → List Nat → Nat → Option Nat × RAMChunker
  | c, [], _ => (none, c)
  | c, b :: rest, i =>
    let global_pos := i + c.pos
    if c.maximum_value ≤ b then
      if c.window_size < global_pos then (some i, c)
      else RAMChunker.loop { c with maximum_value := b } rest (i + 1)
    else RAMChunker.loop c rest (i + 1)

def RAMChunker.find_boundary (c : RAMChunker) (data : List Nat) : Option Nat × RAMChunker :=
  match RAMChunker.loop c data 0 with
  | (some i, c2) => (some i, c2)
  | (none, c2) => (none, { c2 with pos := c2.pos + data.length })

/-- Per-byte presentation of `RAMChunker`. -/
def RAMChunker.step (c : RAMChunker) (b : Nat) : Bool × RAMChunker :=
  if c.maximum_value ≤ b then
    if c.window_size < c.pos then (true, c)
    else (false, { c with maximum_value := b, pos := c.pos + 1 })
  else (false, { c with pos := c.pos + 1 })

/-! ### MaybeOptimizedRAMChunker (`src/ram.rs`)

It reuses `RAMState`; here it gets its own structure of the same shape.
`data[..n].iter().max()` is `listMax` of the taken prefix. -/
def listMax (l : List Nat) : Nat := l.foldl max 0

structure MaybeOptimizedRAMChunker where
  window_size : Nat
  maximum_value : Nat
  pos : Nat
deriving Repr, DecidableEq

def MaybeOptimizedRAMChunker.new (window_size : Nat) : MaybeOptimizedRAMChunker :=
  { window_size := window_size, maximum_value := 0, pos := 0 }

def MaybeOptimizedRAMChunker.ensure_window_filled (c : MaybeOptimizedRAMChunker)
    (data : List Nat) : Option Nat × MaybeOptimizedRAMChunker :=
  let num_bytes_to_advance := min data.length (c.window_size - c.pos)
  if num_bytes_to_advance = 0 then (some 0, c)
  else
    let max_value := listMax (data.take num_bytes_to_advance)
    let c2 := if c.maximum_value ≤ max_value then { c with maximum_value := max_value } else c
    let c3 := { c2 with pos := c2.pos + num_bytes_to_advance }
    if c3.pos = c.window_size then (some num_bytes_to_advance, c3)
    else (none, c3)

def MaybeOptimizedRAMChunker.find_boundary (c : MaybeOptimizedRAMChunker) (data : List Nat) :
    Option Nat × MaybeOptimizedRAMChunker :=
  match c.ensure_window_filled data with
  | (none, c2) => (none, c2)
  | (some p, c2) =>
    match (data.drop p).findIdx? (fun b => decide (c2.maximum_value ≤ b)) with
    | some j => (some (j + p), c2)
    | none => (none, c2)

/-- Per-byte presentation of `MaybeOptimizedRAMChunker`: fill the window for
the first `window_size` bytes, then cut on the first byte `≥` the gathered
maximum. -/
def MaybeOptimizedRAMChunker.step (c : MaybeOptimizedRAMChunker) (b : Nat) :
    Bool × MaybeOptimizedRAMChunker :=
  if c.pos < c.window_size then
    (false, { c with maximum_value := max c.maximum_value b, pos := c.pos + 1 })
  else
    (decide (c.maximum_value ≤ b), c)

/-! ### TTTDChunker (`src/tttd.rs`)

Uses the Gear `TABLE`.  In the source `check_hash` records the backup
position through a `&self` receiver; the mutation is modelled by returning
the updated state.  On the forced-cut path `find_boundary` returns
`self.state.backup_pos` itself, which is a position counted since the last
reset, not an offset into the supplied view. -/
structure TTTDChunker where
  divisor : Nat
  backup_divisor : Nat
  min_chunk_size : Nat
  max_chunk_size : Nat
  hash : Nat
  pos : Nat
  backup_pos : Nat
deriving Repr, DecidableEq

def TTTDChunker.new (divisor backup_divisor min_chunk_size max_chunk_size : Nat) :
    TTTDChunker :=
  { divisor := divisor, backup_divisor := backup_divisor,
    min_chunk_size := min_chunk_size, max_chunk_size := max_chunk_size,
    hash := 0, pos := 0, backup_pos := 0 }

def TTTDChunker.ingest (c : TTTDChunker) (b : Nat) : TTTDChunker :=
  { c with hash := (c.hash * 2 % 2 ^ 32 + TABLE b) % 2 ^ 32, pos := c.pos + 1 }

def TTTDChunker.check_hash (c : TTTDChunker) : Bool × TTTDChunker :=
  let c2 := if c.hash % c.backup_divisor = c.backup_divisor - 1
            then { c with backup_pos := c.pos } else c
  (decide (c2.hash % c2.divisor = c2.divisor - 1), c2)

def TTTDChunker.loop : TTTDChunker → List Nat → Nat → Option Nat × TTTDChunker
  | c, [], _ => (none, c)
  | c, b :: rest, i =>
    let c2 := c.ingest b
    if c2.min_chunk_size ≤ c2.pos then
      if c2.max_chunk_size ≤ c2.pos then
        if 0 < c2.backup_pos then (some c2.backup_pos, c2)
        else (some i, c2)
      else
        match c2.check_hash with
        | (true, c3) => (some i, c3)
        | (false, c3) => TTTDChunker.loop c3 rest (i + 1)
    else TTTDChunker.loop c2 rest (i + 1)

def TTTDChunker.find_boundary (c : TTTDChunker) (data : List Nat) :
    Option Nat × TTTDChunker :=
  TTTDChunker.loop c data 0

/-! ### SizeLimited (`src/lib.rs`)

The combinator produced by `Chunker::max_size` (which asserts `max > 0`).
The outer `if` models `assert!(self.max_size > self.pos)`: on a violation the
Rust code panics, which aborts the scan. -/
structure SizeLimited (σ : Type) where
  inner : σ
  pos : Nat
  max_size : Nat

def SizeLimited.new {σ : Type} (inner : σ) (max_size : Nat) : SizeLimited σ :=
  { inner := inner, pos := 0, max_size := max_size }

def SizeLimited.find_boundary {σ : Type} (fbI : σ → List Nat → Option Nat × σ)
    (c : SizeLimited σ) (data : List Nat) : Option Nat × SizeLimited σ :=
  if c.pos < c.max_size then
    if data.length = 0 then (none, c)
    else
      let left := c.max_size - c.pos
      if left = 1 then (some 0, c)
      else
        let slice := if left < data.length then data.take left else data
        match fbI c.inner slice with
        | (some p, i2) => (some p, { c with inner := i2, pos := c.pos + (p + 1) })
        | (none, i2) =>
          if left ≤ data.length then
            (some (left - 1), { c with inner := i2, pos := c.pos + slice.length })
          else
            (none, { c with inner := i2, pos := c.pos + slice.length })
  else (none, c)

/-! ## The stream engine (`src/lib.rs`)

`ChunkStream` holds the reader (modelled as the list of byte blocks that
successive `read` calls return; an exhausted list models end-of-input), the
strategy state, the filled part of the internal buffer (`buffer[0..len]`),
`pos`, and the emission status.  `ChunkStream.read` is `ChunkStream::read`;
`init` is the strategy's post-construction state that `reset` restores. -/
inductive ChunkInput where
  | Data (d : List Nat)
  | End
deriving Repr, DecidableEq

inductive EmitStatus where
  | End
  | Data
  | AtSplit
deriving Repr, DecidableEq

structure ChunkStream (σ : Type) where
  reader : List (List Nat)
  inner : σ
  buf : List Nat
  pos : Nat
  status : EmitStatus

/-- `Chunker::stream`: fresh engine state (empty buffer, `status = Data`). -/
def ChunkStream.start {σ : Type} (inner : σ) (reader : List (List Nat)) : ChunkStream σ :=
  { reader := reader, inner := inner, buf := [], pos := 0, status := EmitStatus.Data }

/-- The tail of `ChunkStream::read` after the buffer is known non-exhausted:
ask the strategy for a boundary in `buffer[pos..len]`.  The `else (none, st)`
branch models the `assert!(self.pos + split < self.len)` panic. -/
def ChunkStream.readBoundary {σ : Type} (fb : σ → List Nat → Option Nat × σ)
    (st : ChunkStream σ) : Option ChunkInput × ChunkStream σ :=
  match fb st.inner (st.buf.drop st.pos) with
  | (some split, i2) =>
    if st.pos + split < st.buf.length then
      (some (ChunkInput.Data ((st.buf.drop st.pos).take (split + 1))),
       { st with inner := i2, pos := st.pos + (split + 1), status := EmitStatus.AtSplit })
    else (none, st)
  | (none, i2) =>
    (some (ChunkInput.Data (st.buf.drop st.pos)),
     { st with inner := i2, pos := st.buf.length, status := EmitStatus.Data })

/-- `ChunkStream::read`.  A 0-byte read is end-of-input; reading replaces the
buffer contents with the returned block. -/
def ChunkStream.read {σ : Type} (fb : σ → List Nat → Option Nat × σ) (init : σ)
    (st : ChunkStream σ) : Option ChunkInput × ChunkStream σ :=
  if st.status = EmitStatus.AtSplit then
    (some ChunkInput.End, { st with status := EmitStatus.End, inner := init })
  else if st.pos = st.buf.length then
    match st.reader with
    | [] =>
      if st.status = EmitStatus.Data then
        (some ChunkInput.End, { st with pos := 0, buf := [], status := EmitStatus.End })
      else (none, { st with pos := 0, buf := [] })
    | blk :: rest =>
      if blk.length = 0 then
        if st.status = EmitStatus.Data then
          (some ChunkInput.End,
           { st with pos := 0, buf := [], reader := rest, status := EmitStatus.End })
        else (none, { st with pos := 0, buf := [], reader := rest })
      else ChunkStream.readBoundary fb { st with pos := 0, buf := blk, reader := rest }
  else ChunkStream.readBoundary fb st

/-- Drive `ChunkStream.read` until it yields `None` (the `Bool` reports whether
that happened within the fuel), collecting the emitted events. -/
def runStream {σ : Type} (fb : σ → List Nat → Option Nat × σ) (init : σ) :
    Nat → ChunkStream σ → List ChunkInput × Bool × ChunkStream σ
  | 0, st => ([], false, st)
  | fuel + 1, st =>
    match ChunkStream.read fb init st with
    | (none, st2) => ([], true, st2)
    | (some e, st2) =>
      let r := runStream fb init fuel st2
      (e :: r.1, r.2)

/-- Concatenation of the payloads of the `Data` events in an event list. -/
def dataConcat : List ChunkInput → List Nat
  | [] => []
  | ChunkInput.Data d :: rest => d ++ dataConcat rest
  | ChunkInput.End :: rest => dataConcat rest

/-- Bytes the engine still has to emit: the unconsumed part of the buffer plus
everything the reader will still deliver. -/
def pendingBytes {σ : Type} (st : ChunkStream σ) : List Nat :=
  st.buf.drop st.pos ++ st.reader.join

/-- Engine well-formedness: `pos ≤ len`, and the reader respects the read
contract (it never returns 0 bytes before end-of-input). -/
def StreamWF {σ : Type} (st : ChunkStream σ) : Prop :=
  st.pos ≤ st.buf.length ∧ ∀ b ∈ st.reader, b ≠ []

/-- The strategy contract: a reported boundary lies inside the supplied view. -/
def ValidFB {σ : Type} (fb : σ → List Nat → Option Nat × σ) : Prop :=
  ∀ s d k s₂, fb s d = (some k, s₂) → k < d.length

def statusW : EmitStatus → Nat
  | EmitStatus.End => 0
  | EmitStatus.Data => 1
  | EmitStatus.AtSplit => 2

def streamMeasure {σ : Type} (st : ChunkStream σ) : Nat :=
  3 * (pendingBytes st).length + st.reader.length + statusW st.status

/-- Enough fuel for any run over the given reader. -/
def streamFuel (reader : List (List Nat)) : Nat :=
  3 * reader.join.length + reader.length + 2

/-! ## The in-memory slice iterator (`Slices` in `src/lib.rs`) -/

structure Slices (σ : Type) where
  inner : σ
  buffer : List Nat
  pos : Nat

/-- `Chunker::slices`. -/
def Slices.start {σ : Type} (inner : σ) (buffer : List Nat) : Slices σ :=
  { inner := inner, buffer := buffer, pos := 0 }

/-- `Slices::next`; on a boundary the strategy is reset (to `init`).  The
`else (none, sl)` branch models `assert!(self.pos + split < self.buffer.len())`. -/
def Slices.next {σ : Type} (fb : σ → List Nat → Option Nat × σ) (init : σ) (sl : Slices σ) :
    Option (List Nat) × Slices σ :=
  if sl.pos = sl.buffer.length then (none, sl)
  else
    match fb sl.inner (sl.buffer.drop sl.pos) with
    | (some split, _) =>
      if sl.pos + split < sl.buffer.length then
        (some ((sl.buffer.drop sl.pos).take (split + 1)),
         { sl with inner := init, pos := sl.pos + (split + 1) })
      else (none, sl)
    | (none, i2) =>
      (some (sl.buffer.drop sl.pos), { sl with inner := i2, pos := sl.buffer.length })

def runSlices {σ : Type} (fb : σ → List Nat → Option Nat × σ) (init : σ) :
    Nat → Slices σ → List (List Nat) × Bool × Slices σ
  | 0, sl => ([], false, sl)
  | fuel + 1, sl =>
    match Slices.next fb init sl with
    | (none, sl2) => ([], true, sl2)
    | (some s, sl2) =>
      let r := runSlices fb init fuel sl2
      (s :: r.1, r.2)

/-! ## Adapters on top of the event stream -/

/-- `ChunkInfoStream::next`, applied to a finished event list: fold the events
with the running byte position, yielding `(start, length)` on each `End`. -/
def chunkInfos : List ChunkInput → Nat → Nat → List (Nat × Nat)
  | [], _, _ => []
  | ChunkInput.Data d :: rest, last_chunk, pos => chunkInfos rest last_chunk (pos + d.length)
  | ChunkInput.End :: rest, last_chunk, pos =>
    (last_chunk, pos - last_chunk) :: chunkInfos rest pos pos

/-- Lengths of the chunks determined by a cut-offset list over an input of
`total` bytes: each cut ends a chunk at that offset (inclusive), and the bytes
after the last cut form a final chunk if any remain. -/
def chunkLens : Nat → List Nat → Nat → List Nat
  | start, [], total => if start < total then [total - start] else []
  | start, c :: rest, total => (c + 1 - start) :: chunkLens (c + 1) rest total

/-! ## Simulation lemmas for the batch-style strategies -/

theorem FSC_step_eq (cs p b : Nat) :
    FixedSizeChunker.step ⟨cs, p⟩ b = (decide (p + 1 = cs), ⟨cs, p + 1⟩) := rfl

theorem FSC_fb_eq (cs p : Nat) (d : List Nat) :
    FixedSizeChunker.find_boundary ⟨cs, p⟩ d =
      if cs ≤ p + d.length then (some (cs - p - 1), ⟨cs, p⟩)
      else (none, ⟨cs, p + d.length⟩) := rfl

theorem scanB_FSCstep (d : List Nat) : ∀ (cs p : Nat), p < cs →
    (scanB FixedSizeChunker.step ⟨cs, p⟩ d).1 =
      (if cs ≤ p + d.length then some (cs - p - 1) else none) ∧
    ((scanB FixedSizeChunker.step ⟨cs, p⟩ d).1 = none →
      (scanB FixedSizeChunker.step ⟨cs, p⟩ d).2 = ⟨cs, p + d.length⟩) := by
  induction d with
  | nil =>
    intro cs p hc
    refine ⟨?_, fun _ => rfl⟩
    rw [scanB_nil]
    simp only [List.length_nil]
    rw [if_neg (by omega)]
  | cons b rest ih =>
    intro cs p hc
    by_cases he : p + 1 = cs
    · rw [scanB_cons_cut _ _ _ _ (by rw [FSC_step_eq]; exact decide_eq_true he)]
      refine ⟨?_, fun hn => by simp at hn⟩
      have hcut : cs ≤ p + (b :: rest).length := by
        simp only [List.length_cons]
        omega
      rw [if_pos hcut]
      simp only [Option.some.injEq]
      omega
    · rw [scanB_cons_nocut _ _ _ _ (by rw [FSC_step_eq]; exact decide_eq_false he),
        FSC_step_eq]
      obtain ⟨ih1, ih2⟩ := ih cs (p + 1) (by omega)
      refine ⟨?_, fun hn => ?_⟩
      · show Option.map _ (scanB FixedSizeChunker.step ⟨cs, p + 1⟩ rest).1 = _
        rw [ih1]
        by_cases hcut : cs ≤ p + (b :: rest).length
        · have hcut2 : cs ≤ p + 1 + rest.length := by
            simp only [List.length_cons] at hcut
            omega
          rw [if_pos hcut2, if_pos hcut]
          simp only [Option.map_some', Option.some.injEq]
          omega
        · have hcut2 : ¬ cs ≤ p + 1 + rest.length := by
            simp only [List.length_cons] at hcut
            omega
          rw [if_neg hcut2, if_neg hcut]
          rfl
      · show (scanB FixedSizeChunker.step ⟨cs, p + 1⟩ rest).2 = _
        have hnone : (scanB FixedSizeChunker.step ⟨cs, p + 1⟩ rest).1 = none := by
          rcases ho : (scanB FixedSizeChunker.step ⟨cs, p + 1⟩ rest).1 with _ | m
          · rfl
          · rw [ho] at hn; simp at hn
        rw [ih2 hnone]
        have harith : p + 1 + rest.length = p + (b :: rest).length := by
          simp only [List.length_cons]
          omega
        rw [harith]

theorem simFB_FSC : SimFB FixedSizeChunker.find_boundary FixedSizeChunker.step id
    (fun c => c.pos < c.chunk_size) := by
  intro c d hc
  simp only [id_eq]
  rcases c with ⟨cs, p⟩
  obtain ⟨h1, h2⟩ := scanB_FSCstep d cs p hc
  rw [FSC_fb_eq]
  by_cases hcut : cs ≤ p + d.length
  · rw [if_pos hcut]
    refine ⟨?_, fun hn => ?_⟩
    · rw [h1, if_pos hcut]
    · simp at hn
  · rw [if_neg hcut]
    have hs : (scanB FixedSizeChunker.step ⟨cs, p⟩ d).1 = none := by rw [h1, if_neg hcut]
    refine ⟨by rw [h1, if_neg hcut], fun _ => ⟨by rw [h2 hs], ?_⟩⟩
    show p + d.length < cs
    omega

theorem AE_step_eq (w mv mp p b : Nat) :
    AEChunker.step ⟨w, mv, mp, p⟩ b =
      if b ≤ mv then
        (if p = mp + w then (true, ⟨w, mv, mp, p⟩) else (false, ⟨w, mv, mp, p + 1⟩))
      else (false, ⟨w, b, p, p + 1⟩) := by
  unfold AEChunker.step
  by_cases h1 : b ≤ mv
  · rw [if_pos h1]
  · rw [if_neg h1]

theorem AE_loop_cons (w mv mp p b i : Nat) (rest : List Nat) :
    AEChunker.loop ⟨w, mv, mp, p⟩ (b :: rest) i =
      if b ≤ mv then
        (if p + i = mp + w then (some i, ⟨w, mv, mp, p⟩)
         else AEChunker.loop ⟨w, mv, mp, p⟩ rest (i + 1))
      else AEChunker.loop ⟨w, b, p + i, p⟩ rest (i + 1) := by
  show (if b ≤ mv then _ else _) = _
  by_cases h1 : b ≤ mv
  · rw [if_pos h1]
  · rw [if_neg h1]

theorem AE_loop_pos (rest : List Nat) : ∀ (w mv mp p i : Nat),
    (AEChunker.loop ⟨w, mv, mp, p⟩ rest i).2.pos = p := by
  induction rest with
  | nil => intro w mv mp p i; rfl
  | cons b r ih =>
    intro w mv mp p i
    rw [AE_loop_cons]
    by_cases h1 : b ≤ mv
    · rw [if_pos h1]
      by_cases h2 : p + i = mp + w
      · rw [if_pos h2]
      · rw [if_neg h2]; exact ih w mv mp p (i + 1)
    · rw [if_neg h1]
      exact ih w b (p + i) p (i + 1)

theorem AE_loop_scan (rest : List Nat) : ∀ (w mv mp p i : Nat),
    (AEChunker.loop ⟨w, mv, mp, p⟩ rest i).1 =
      ((scanB AEChunker.step ⟨w, mv, mp, p + i⟩ rest).1.map (fun n => n + i)) ∧
    ((AEChunker.loop ⟨w, mv, mp, p⟩ rest i).1 = none →
      (scanB AEChunker.step ⟨w, mv, mp, p + i⟩ rest).2 =
        { (AEChunker.loop ⟨w, mv, mp, p⟩ rest i).2 with pos := p + i + rest.length }) := by
  induction rest with
  | nil =>
    intro w mv mp p i
    exact ⟨rfl, fun _ => rfl⟩
  | cons b r ih =>
    intro w mv mp p i
    rw [AE_loop_cons]
    by_cases h1 : b ≤ mv
    · by_cases h2 : p + i = mp + w
      · rw [if_pos h1, if_pos h2,
          scanB_cons_cut _ _ _ _ (by rw [AE_step_eq, if_pos h1, if_pos h2])]
        refine ⟨by simp, fun hn => by simp at hn⟩
      · rw [if_pos h1, if_neg h2,
          scanB_cons_nocut _ _ _ _ (by rw [AE_step_eq, if_pos h1, if_neg h2]),
          AE_step_eq, if_pos h1, if_neg h2]
        obtain ⟨ih1, ih2⟩ := ih w mv mp p (i + 1)
        rw [← Nat.add_assoc] at ih1 ih2
        refine ⟨?_, fun hn => ?_⟩
        · show _ = Option.map _ (Option.map _ (scanB AEChunker.step ⟨w, mv, mp, p + i + 1⟩ r).1)
          rw [ih1]
          rcases ho : (scanB AEChunker.step ⟨w, mv, mp, p + i + 1⟩ r).1 with _ | m
          · rfl
          · simp only [Option.map_some', Option.some.injEq]
            omega
        · show (scanB AEChunker.step ⟨w, mv, mp, p + i + 1⟩ r).2 = _
          rw [ih2 hn]
          simp only [List.length_cons]
          congr 1
          omega
    · rw [if_neg h1,
        scanB_cons_nocut _ _ _ _ (by rw [AE_step_eq, if_neg h1]),
        AE_step_eq, if_neg h1]
      obtain ⟨ih1, ih2⟩ := ih w b (p + i) p (i + 1)
      rw [← Nat.add_assoc] at ih1 ih2
      refine ⟨?_, fun hn => ?_⟩
      · show _ = Option.map _ (Option.map _ (scanB AEChunker.step ⟨w, b, p + i, p + i + 1⟩ r).1)
        rw [ih1]
        rcases ho : (scanB AEChunker.step ⟨w, b, p + i, p + i + 1⟩ r).1 with _ | m
        · rfl
        · simp only [Option.map_some', Option.some.injEq]
          omega
      · show (scanB AEChunker.step ⟨w, b, p + i, p + i + 1⟩ r).2 = _
        rw [ih2 hn]
        simp only [List.length_cons]
        congr 1
        omega

theorem simFB_AE : SimFB AEChunker.find_boundary AEChunker.step id (fun _ => True) := by
  intro c d _
  simp only [id_eq]
  rcases c with ⟨w, mv, mp, p⟩
  obtain ⟨h1, h2⟩ := AE_loop_scan d w mv mp p 0
  have hpos := AE_loop_pos d w mv mp p 0
  unfold AEChunker.find_boundary
  rcases hl : AEChunker.loop ⟨w, mv, mp, p⟩ d 0 with ⟨o, c2⟩
  rw [hl] at h1 h2 hpos
  have hp0 : (⟨w, mv, mp, p + 0⟩ : AEChunker) = ⟨w, mv, mp, p⟩ := rfl
  rw [hp0] at h1 h2
  cases o with
  | some i =>
    refine ⟨?_, fun hn => by simp at hn⟩
    rcases ho : (scanB AEChunker.step ⟨w, mv, mp, p⟩ d).1 with _ | m
    · rw [ho] at h1; simp at h1
    · rw [ho] at h1
      simp only [Option.map_some', Option.some.injEq] at h1
      exact congrArg some (by omega)
  | none =>
    have hsn : (scanB AEChunker.step ⟨w, mv, mp, p⟩ d).1 = none := by
      rcases ho : (scanB AEChunker.step ⟨w, mv, mp, p⟩ d).1 with _ | m
      · rfl
      · rw [ho] at h1; simp at h1
    refine ⟨by rw [hsn], fun _ => ⟨?_, trivial⟩⟩
    show ({ c2 with pos := c2.pos + d.length } : AEChunker) = (scanB AEChunker.step ⟨w, mv, mp, p⟩ d).2
    rw [h2 rfl]
    rcases c2 with ⟨w2, mv2, mp2, p2⟩
    simp only [] at hpos
    simp [hpos]

theorem RAM_step_eq (w mv p b : Nat) :
    RAMChunker.step ⟨w, mv, p⟩ b =
      if mv ≤ b then
        (if w < p then (true, ⟨w, mv, p⟩) else (false, ⟨w, b, p + 1⟩))
      else (false, ⟨w, mv, p + 1⟩) := by
  unfold RAMChunker.step
  by_cases h1 : mv ≤ b
  · rw [if_pos h1]
  · rw [if_neg h1]

theorem RAM_loop_cons (w mv p b i : Nat) (rest : List Nat) :
    RAMChunker.loop ⟨w, mv, p⟩ (b :: rest) i =
      if mv ≤ b then
        (if w < i + p then (some i, ⟨w, mv, p⟩)
         else RAMChunker.loop ⟨w, b, p⟩ rest (i + 1))
      else RAMChunker.loop ⟨w, mv, p⟩ rest (i + 1) := by
  show (if mv ≤ b then _ else _) = _
  by_cases h1 : mv ≤ b
  · rw [if_pos h1]
  · rw [if_neg h1]

theorem RAM_loop_pos (rest : List Nat) : ∀ (w mv p i : Nat),
    (RAMChunker.loop ⟨w, mv, p⟩ rest i).2.pos = p := by
  induction rest with
  | nil => intro w mv p i; rfl
  | cons b r ih =>
    intro w mv p i
    rw [RAM_loop_cons]
    by_cases h1 : mv ≤ b
    · rw [if_pos h1]
      by_cases h2 : w < i + p
      · rw [if_pos h2]
      · rw [if_neg h2]; exact ih w b p (i + 1)
    · rw [if_neg h1]
      exact ih w mv p (i + 1)

theorem RAM_loop_scan (rest : List Nat) : ∀ (w mv p i : Nat),
    (RAMChunker.loop ⟨w, mv, p⟩ rest i).1 =
      ((scanB RAMChunker.step ⟨w, mv, p + i⟩ rest).1.map (fun n => n + i)) ∧
    ((RAMChunker.loop ⟨w, mv, p⟩ rest i).1 = none →
      (scanB RAMChunker.step ⟨w, mv, p + i⟩ rest).2 =
        { (RAMChunker.loop ⟨w, mv, p⟩ rest i).2 with pos := p + i + rest.length }) := by
  induction rest with
  | nil =>
    intro w mv p i
    exact ⟨rfl, fun _ => rfl⟩
  | cons b r ih =>
    intro w mv p i
    rw [RAM_loop_cons]
    by_cases h1 : mv ≤ b
    · by_cases h2 : w < i + p
      · have h2x : w < p + i := by omega
        rw [if_pos h1, if_pos h2,
          scanB_cons_cut _ _ _ _ (by rw [RAM_step_eq, if_pos h1, if_pos h2x])]
        refine ⟨by simp, fun hn => by simp at hn⟩
      · have h2x : ¬ w < p + i := by omega
        rw [if_pos h1, if_neg h2,
          scanB_cons_nocut _ _ _ _ (by rw [RAM_step_eq, if_pos h1, if_neg h2x]),
          RAM_step_eq, if_pos h1, if_neg h2x]
        obtain ⟨ih1, ih2⟩ := ih w b p (i + 1)
        rw [← Nat.add_assoc] at ih1 ih2
        refine ⟨?_, fun hn => ?_⟩
        · show _ = Option.map _ (Option.map _ (scanB RAMChunker.step ⟨w, b, p + i + 1⟩ r).1)
          rw [ih1]
          rcases ho : (scanB RAMChunker.step ⟨w, b, p + i + 1⟩ r).1 with _ | m
          · rfl
          · simp only [Option.map_some', Option.some.injEq]
            omega
        · show (scanB RAMChunker.step ⟨w, b, p + i + 1⟩ r).2 = _
          rw [ih2 hn]
          simp only [List.length_cons]
          congr 1
          omega
    · rw [if_neg h1,
        scanB_cons_nocut _ _ _ _ (by rw [RAM_step_eq, if_neg h1]),
        RAM_step_eq, if_neg h1]
      obtain ⟨ih1, ih2⟩ := ih w mv p (i + 1)
      rw [← Nat.add_assoc] at ih1 ih2
      refine ⟨?_, fun hn => ?_⟩
      · show _ = Option.map _ (Option.map _ (scanB RAMChunker.step ⟨w, mv, p + i + 1⟩ r).1)
        rw [ih1]
        rcases ho : (scanB RAMChunker.step ⟨w, mv, p + i + 1⟩ r).1 with _ | m
        · rfl
        · simp only [Option.map_some', Option.some.injEq]
          omega
      · show (scanB RAMChunker.step ⟨w, mv, p + i + 1⟩ r).2 = _
        rw [ih2 hn]
        simp only [List.length_cons]
        congr 1
        omega

theorem simFB_RAM : SimFB RAMChunker.find_boundary RAMChunker.step id (fun _ => True) := by
  intro c d _
  simp only [id_eq]
  rcases c with ⟨w, mv, p⟩
  obtain ⟨h1, h2⟩ := RAM_loop_scan d w mv p 0
  have hpos := RAM_loop_pos d w mv p 0
  unfold RAMChunker.find_boundary
  rcases hl : RAMChunker.loop ⟨w, mv, p⟩ d 0 with ⟨o, c2⟩
  rw [hl] at h1 h2 hpos
  have hp0 : (⟨w, mv, p + 0⟩ : RAMChunker) = ⟨w, mv, p⟩ := rfl
  rw [hp0] at h1 h2
  cases o with
  | some i =>
    refine ⟨?_, fun hn => by simp at hn⟩
    rcases ho : (scanB RAMChunker.step ⟨w, mv, p⟩ d).1 with _ | m
    · rw [ho] at h1; simp at h1
    · rw [ho] at h1
      simp only [Option.map_some', Option.some.injEq] at h1
      exact congrArg some (by omega)
  | none =>
    have hsn : (scanB RAMChunker.step ⟨w, mv, p⟩ d).1 = none := by
      rcases ho : (scanB RAMChunker.step ⟨w, mv, p⟩ d).1 with _ | m
      · rfl
      · rw [ho] at h1; simp at h1
    refine ⟨by rw [hsn], fun _ => ⟨?_, trivial⟩⟩
    show ({ c2 with pos := c2.pos + d.length } : RAMChunker) = (scanB RAMChunker.step ⟨w, mv, p⟩ d).2
    rw [h2 rfl]
    rcases c2 with ⟨w2, mv2, p2⟩
    simp only [] at hpos
    simp [hpos]

theorem listMax_shift (l : List Nat) : ∀ a : Nat, l.foldl max a = max a (l.foldl max 0) := by
  induction l with
  | nil => intro a; simp [List.foldl]
  | cons x xs ih =>
    intro a
    simp only [List.foldl]
    rw [ih (max a x), ih (max 0 x), Nat.zero_max x, Nat.max_assoc]

theorem listMax_cons (b : Nat) (l : List Nat) : listMax (b :: l) = max b (listMax l) := by
  unfold listMax
  simp only [List.foldl]
  rw [listMax_shift l (max 0 b), Nat.zero_max b]

theorem listMax_single (b : Nat) : listMax [b] = b := by
  rw [listMax_cons]
  simp [listMax]

theorem MOpt_step_fill_eq (w mv p b : Nat) (h : p < w) :
    MaybeOptimizedRAMChunker.step ⟨w, mv, p⟩ b = (false, ⟨w, max mv b, p + 1⟩) := by
  unfold MaybeOptimizedRAMChunker.step
  rw [if_pos h]

theorem MOpt_step_scan_eq (w mv p b : Nat) (h : ¬ p < w) :
    MaybeOptimizedRAMChunker.step ⟨w, mv, p⟩ b = (decide (mv ≤ b), ⟨w, mv, p⟩) := by
  unfold MaybeOptimizedRAMChunker.step
  rw [if_neg h]

theorem MOpt_ensure_zero (w mv p : Nat) (data : List Nat)
    (h : min data.length (w - p) = 0) :
    MaybeOptimizedRAMChunker.ensure_window_filled ⟨w, mv, p⟩ data = (some 0, ⟨w, mv, p⟩) := by
  simp only [MaybeOptimizedRAMChunker.ensure_window_filled]
  rw [if_pos h]

theorem MOpt_ensure_fill (w mv p : Nat) (data : List Nat)
    (h : ¬ min data.length (w - p) = 0) :
    MaybeOptimizedRAMChunker.ensure_window_filled ⟨w, mv, p⟩ data =
      (if p + min data.length (w - p) = w then some (min data.length (w - p)) else none,
       ⟨w, max mv (listMax (data.take (min data.length (w - p)))),
        p + min data.length (w - p)⟩) := by
  simp only [MaybeOptimizedRAMChunker.ensure_window_filled]
  rw [if_neg h]
  by_cases hm : mv ≤ listMax (data.take (min data.length (w - p)))
  · rw [if_pos hm]
    by_cases hw : p + min data.length (w - p) = w
    · rw [if_pos hw, if_pos hw]
      rw [Nat.max_eq_right hm]
    · rw [if_neg hw, if_neg hw]
      rw [Nat.max_eq_right hm]
  · rw [if_neg hm]
    have hm2 : max mv (listMax (data.take (min data.length (w - p)))) = mv :=
      Nat.max_eq_left (by omega)
    by_cases hw : p + min data.length (w - p) = w
    · rw [if_pos hw, if_pos hw, hm2]
    · rw [if_neg hw, if_neg hw, hm2]

theorem scanB_MOpt_phase (d : List Nat) : ∀ (w mv p : Nat), ¬ p < w →
    scanB MaybeOptimizedRAMChunker.step ⟨w, mv, p⟩ d =
      (d.findIdx? (fun b => decide (mv ≤ b)), ⟨w, mv, p⟩) := by
  induction d with
  | nil =>
    intro w mv p hp
    rw [scanB_nil, List.findIdx?_nil]
  | cons b rest ih =>
    intro w mv p hp
    by_cases hb : mv ≤ b
    · rw [scanB_cons_cut _ _ _ _ (by rw [MOpt_step_scan_eq w mv p b hp]; exact decide_eq_true hb),
        MOpt_step_scan_eq w mv p b hp, List.findIdx?_cons, if_pos (decide_eq_true hb)]
    · rw [scanB_cons_nocut _ _ _ _ (by rw [MOpt_step_scan_eq w mv p b hp]; exact decide_eq_false hb),
        MOpt_step_scan_eq w mv p b hp, List.findIdx?_cons,
        if_neg (by rw [decide_eq_false hb]; simp), ih w mv p hp, List.findIdx?_succ]

theorem MOpt_fb_of_ensure_some (c : MaybeOptimizedRAMChunker) (data : List Nat) (k : Nat)
    (C : MaybeOptimizedRAMChunker)
    (h : c.ensure_window_filled data = (some k, C)) :
    MaybeOptimizedRAMChunker.find_boundary c data =
      (match (data.drop k).findIdx? (fun b => decide (C.maximum_value ≤ b)) with
       | some j => (some (j + k), C)
       | none => (none, C)) := by
  unfold MaybeOptimizedRAMChunker.find_boundary
  rw [h]

theorem MOpt_fb_of_ensure_none (c : MaybeOptimizedRAMChunker) (data : List Nat)
    (C : MaybeOptimizedRAMChunker)
    (h : c.ensure_window_filled data = (none, C)) :
    MaybeOptimizedRAMChunker.find_boundary c data = (none, C) := by
  unfold MaybeOptimizedRAMChunker.find_boundary
  rw [h]

theorem MOpt_fb_shift (w mv p b : Nat) (rest : List Nat) (hpw : p < w) :
    (MaybeOptimizedRAMChunker.find_boundary ⟨w, mv, p⟩ (b :: rest)).1 =
      ((MaybeOptimizedRAMChunker.find_boundary ⟨w, max mv b, p + 1⟩ rest).1).map
        (fun n => n + 1) ∧
    ((MaybeOptimizedRAMChunker.find_boundary ⟨w, mv, p⟩ (b :: rest)).1 = none →
      (MaybeOptimizedRAMChunker.find_boundary ⟨w, mv, p⟩ (b :: rest)).2 =
        (MaybeOptimizedRAMChunker.find_boundary ⟨w, max mv b, p + 1⟩ rest).2) := by
  have hnum : ¬ min (b :: rest).length (w - p) = 0 := by
    simp only [List.length_cons]
    omega
  by_cases hone : min (b :: rest).length (w - p) = 1
  · -- only the first byte of this view is a fill byte
    have htake : (b :: rest).take 1 = [b] := rfl
    by_cases hw : p + 1 = w
    · have hens : MaybeOptimizedRAMChunker.ensure_window_filled ⟨w, mv, p⟩ (b :: rest) =
          (some 1, ⟨w, max mv b, p + 1⟩) := by
        rw [MOpt_ensure_fill w mv p (b :: rest) hnum, hone, htake, listMax_single, if_pos hw]
      have hz : min rest.length (w - (p + 1)) = 0 := by omega
      have hens2 : MaybeOptimizedRAMChunker.ensure_window_filled ⟨w, max mv b, p + 1⟩ rest =
          (some 0, ⟨w, max mv b, p + 1⟩) := MOpt_ensure_zero w (max mv b) (p + 1) rest hz
      rw [MOpt_fb_of_ensure_some _ _ _ _ hens, MOpt_fb_of_ensure_some _ _ _ _ hens2]
      have hdrop : (b :: rest).drop 1 = rest := rfl
      have hdrop0 : rest.drop 0 = rest := rfl
      rw [hdrop, hdrop0]
      rcases hf : rest.findIdx? (fun x => decide (max mv b ≤ x)) with _ | j
      · exact ⟨rfl, fun _ => rfl⟩
      · exact ⟨by simp, fun hn => by simp at hn⟩
    · -- the window is not yet filled after this byte: `rest` must be empty
      have hrest : rest = [] := by
        rcases rest with _ | ⟨r, rs⟩
        · rfl
        · exfalso
          simp only [List.length_cons] at hone
          omega
      subst hrest
      have hens : MaybeOptimizedRAMChunker.ensure_window_filled ⟨w, mv, p⟩ [b] =
          (none, ⟨w, max mv b, p + 1⟩) := by
        rw [MOpt_ensure_fill w mv p [b] hnum, hone, htake, listMax_single, if_neg hw]
      have hz : min ([] : List Nat).length (w - (p + 1)) = 0 := by simp
      have hens2 : MaybeOptimizedRAMChunker.ensure_window_filled ⟨w, max mv b, p + 1⟩ [] =
          (some 0, ⟨w, max mv b, p + 1⟩) := MOpt_ensure_zero w (max mv b) (p + 1) [] hz
      rw [MOpt_fb_of_ensure_none _ _ _ hens, MOpt_fb_of_ensure_some _ _ _ _ hens2]
      have hnilf : (([] : List Nat).drop 0).findIdx? (fun x => decide (max mv b ≤ x)) = none :=
        rfl
      rw [hnilf]
      exact ⟨rfl, fun _ => rfl⟩
  · -- at least two bytes of this view feed the window fill
    obtain ⟨q, hq⟩ : ∃ q, w = p + q + 1 := ⟨w - p - 1, by omega⟩
    subst hq
    have hwp2 : p + q + 1 - (p + 1) = q := by omega
    have hnumeq : min (b :: rest).length (p + q + 1 - p) = min rest.length q + 1 := by
      have hwp : p + q + 1 - p = q + 1 := by omega
      simp only [List.length_cons, hwp]
      omega
    rw [hnumeq] at hone
    have hm1 : 1 ≤ min rest.length q := by omega
    have hnz2 : ¬ min rest.length (p + q + 1 - (p + 1)) = 0 := by
      rw [hwp2]
      omega
    have htake : (b :: rest).take (min rest.length q + 1) = b :: rest.take (min rest.length q) :=
      List.take_succ_cons
    have hdrop : (b :: rest).drop (min rest.length q + 1) = rest.drop (min rest.length q) :=
      List.drop_succ_cons
    have hmax : max mv (listMax ((b :: rest).take (min rest.length q + 1))) =
        max (max mv b) (listMax (rest.take (min rest.length q))) := by
      rw [htake, listMax_cons, Nat.max_assoc]
    have hpos : p + 1 + min rest.length q = p + (min rest.length q + 1) := by omega
    by_cases hw : p + (min rest.length q + 1) = p + q + 1
    · have hens : MaybeOptimizedRAMChunker.ensure_window_filled ⟨p + q + 1, mv, p⟩ (b :: rest) =
          (some (min rest.length q + 1),
           ⟨p + q + 1, max (max mv b) (listMax (rest.take (min rest.length q))),
            p + (min rest.length q + 1)⟩) := by
        rw [MOpt_ensure_fill (p + q + 1) mv p (b :: rest) hnum, hnumeq, hmax, if_pos hw]
      have hens2 : MaybeOptimizedRAMChunker.ensure_window_filled
          ⟨p + q + 1, max mv b, p + 1⟩ rest =
          (some (min rest.length q),
           ⟨p + q + 1, max (max mv b) (listMax (rest.take (min rest.length q))),
            p + (min rest.length q + 1)⟩) := by
        rw [MOpt_ensure_fill (p + q + 1) (max mv b) (p + 1) rest hnz2, hwp2, hpos, if_pos hw]
      rw [MOpt_fb_of_ensure_some _ _ _ _ hens, MOpt_fb_of_ensure_some _ _ _ _ hens2, hdrop]
      rcases hf : (rest.drop (min rest.length q)).findIdx?
          (fun x => decide (max (max mv b) (listMax (rest.take (min rest.length q))) ≤ x))
          with _ | j
      · exact ⟨rfl, fun _ => rfl⟩
      · refine ⟨?_, fun hn => by simp at hn⟩
        simp only [Option.map_some', Option.some.injEq]
        omega
    · have hens : MaybeOptimizedRAMChunker.ensure_window_filled ⟨p + q + 1, mv, p⟩ (b :: rest) =
          (none,
           ⟨p + q + 1, max (max mv b) (listMax (rest.take (min rest.length q))),
            p + (min rest.length q + 1)⟩) := by
        rw [MOpt_ensure_fill (p + q + 1) mv p (b :: rest) hnum, hnumeq, hmax, if_neg hw]
      have hens2 : MaybeOptimizedRAMChunker.ensure_window_filled
          ⟨p + q + 1, max mv b, p + 1⟩ rest =
          (none,
           ⟨p + q + 1, max (max mv b) (listMax (rest.take (min rest.length q))),
            p + (min rest.length q + 1)⟩) := by
        rw [MOpt_ensure_fill (p + q + 1) (max mv b) (p + 1) rest hnz2, hwp2, hpos, if_neg hw]
      rw [MOpt_fb_of_ensure_none _ _ _ hens, MOpt_fb_of_ensure_none _ _ _ hens2]
      exact ⟨rfl, fun _ => rfl⟩

theorem MOpt_sim_aux (d : List Nat) : ∀ (w mv p : Nat), p ≤ w →
    (MaybeOptimizedRAMChunker.find_boundary ⟨w, mv, p⟩ d).1 =
      (scanB MaybeOptimizedRAMChunker.step ⟨w, mv, p⟩ d).1 ∧
    ((MaybeOptimizedRAMChunker.find_boundary ⟨w, mv, p⟩ d).1 = none →
      (MaybeOptimizedRAMChunker.find_boundary ⟨w, mv, p⟩ d).2 =
        (scanB MaybeOptimizedRAMChunker.step ⟨w, mv, p⟩ d).2 ∧
      (MaybeOptimizedRAMChunker.find_boundary ⟨w, mv, p⟩ d).2.pos ≤
        (MaybeOptimizedRAMChunker.find_boundary ⟨w, mv, p⟩ d).2.window_size) := by
  induction d with
  | nil =>
    intro w mv p hp
    have hz : min ([] : List Nat).length (w - p) = 0 := by simp
    have hfb : MaybeOptimizedRAMChunker.find_boundary ⟨w, mv, p⟩ [] = (none, ⟨w, mv, p⟩) := by
      unfold MaybeOptimizedRAMChunker.find_boundary
      rw [MOpt_ensure_zero w mv p [] hz]
      rfl
    rw [hfb, scanB_nil]
    exact ⟨rfl, fun _ => ⟨rfl, hp⟩⟩
  | cons b rest ih =>
    intro w mv p hp
    by_cases hpw : p < w
    · obtain ⟨hs1, hs2⟩ := MOpt_fb_shift w mv p b rest hpw
      obtain ⟨ih1, ih2⟩ := ih w (max mv b) (p + 1) (by omega)
      rw [scanB_cons_nocut _ _ _ _ (by rw [MOpt_step_fill_eq w mv p b hpw]),
        MOpt_step_fill_eq w mv p b hpw]
      refine ⟨?_, fun hn => ?_⟩
      · rw [hs1, ih1]
      · have hnone : (MaybeOptimizedRAMChunker.find_boundary ⟨w, max mv b, p + 1⟩ rest).1 =
            none := by
          rw [hs1] at hn
          rcases ho : (MaybeOptimizedRAMChunker.find_boundary ⟨w, max mv b, p + 1⟩ rest).1
              with _ | m
          · rfl
          · rw [ho] at hn; simp at hn
        obtain ⟨ih2a, ih2b⟩ := ih2 hnone
        rw [hs2 hn, ih2a]
        exact ⟨rfl, by rw [← ih2a]; exact ih2b⟩
    · have hz : min (b :: rest).length (w - p) = 0 := by omega
      have hfb := MOpt_fb_of_ensure_some ⟨w, mv, p⟩ (b :: rest) 0 ⟨w, mv, p⟩
        (MOpt_ensure_zero w mv p (b :: rest) hz)
      have hdrop0 : (b :: rest).drop 0 = b :: rest := rfl
      rw [hdrop0] at hfb
      rw [hfb, scanB_MOpt_phase (b :: rest) w mv p hpw]
      rcases hf : (b :: rest).findIdx? (fun x => decide (mv ≤ x)) with _ | j
      · exact ⟨rfl, fun _ => ⟨rfl, hp⟩⟩
      · exact ⟨by simp, fun hn => by simp at hn⟩

theorem simFB_MOpt : SimFB MaybeOptimizedRAMChunker.find_boundary
    MaybeOptimizedRAMChunker.step id (fun c => c.pos ≤ c.window_size) := by
  intro c d hc
  simp only [id_eq]
  rcases c with ⟨w, mv, p⟩
  obtain ⟨h1, h2⟩ := MOpt_sim_aux d w mv p hc
  exact ⟨h1, fun hn => (h2 hn).imp_right id⟩

/-! ## RAMChunker versus MaybeOptimizedRAMChunker

`RAMChunker.step` with window `q` and `MaybeOptimizedRAMChunker.step` with
window `q + 1` are byte-for-byte the same machine: the former treats the
bytes at positions `0..q` (that is, `q + 1` bytes) as the maximum-gathering
prefix, the latter fills a window of `q + 1` bytes. -/
def RMRel (q : Nat) (s : RAMChunker) (t : MaybeOptimizedRAMChunker) : Prop :=
  s.window_size = q ∧ t.window_size = q + 1 ∧ t.maximum_value = s.maximum_value ∧
    t.pos = min s.pos (q + 1)

theorem RMRel_step (q : Nat) : ∀ (s : RAMChunker) (t : MaybeOptimizedRAMChunker) (b : Nat),
    RMRel q s t →
    (RAMChunker.step s b).1 = (MaybeOptimizedRAMChunker.step t b).1 ∧
    RMRel q (RAMChunker.step s b).2 (MaybeOptimizedRAMChunker.step t b).2 := by
  rintro ⟨ws, mvs, ps⟩ ⟨wt, mvt, pt⟩ b ⟨h1, h2, h3, h4⟩
  simp only [] at h1 h2 h3 h4
  subst wt mvt pt ws
  by_cases hfill : ps < q + 1
  · have hto : min ps (q + 1) < q + 1 := by omega
    rw [MOpt_step_fill_eq (q + 1) mvs (min ps (q + 1)) b hto, RAM_step_eq]
    by_cases hb : mvs ≤ b
    · rw [if_pos hb, if_neg (show ¬ q < ps by omega)]
      refine ⟨rfl, rfl, rfl, ?_, ?_⟩
      · show max mvs b = b
        exact Nat.max_eq_right hb
      · show min ps (q + 1) + 1 = min (ps + 1) (q + 1)
        omega
    · rw [if_neg hb]
      refine ⟨rfl, rfl, rfl, ?_, ?_⟩
      · show max mvs b = mvs
        exact Nat.max_eq_left (by omega)
      · show min ps (q + 1) + 1 = min (ps + 1) (q + 1)
        omega
  · have hto : ¬ min ps (q + 1) < q + 1 := by omega
    rw [MOpt_step_scan_eq (q + 1) mvs (min ps (q + 1)) b hto, RAM_step_eq]
    by_cases hb : mvs ≤ b
    · rw [if_pos hb, if_pos (show q < ps by omega)]
      exact ⟨(decide_eq_true hb).symm, rfl, rfl, rfl, rfl⟩
    · rw [if_neg hb]
      refine ⟨(decide_eq_false hb).symm, rfl, rfl, rfl, ?_⟩
      show min ps (q + 1) = min (ps + 1) (q + 1)
      omega

/-! ## Correctness of the stream engine run -/

theorem dataConcat_cons (e : ChunkInput) (l : List ChunkInput) :
    dataConcat (e :: l) = dataConcat [e] ++ dataConcat l := by
  cases e <;> simp [dataConcat]

theorem statusW_le (s : EmitStatus) : statusW s ≤ 2 := by
  cases s <;> simp [statusW]

/-- With a contract-abiding strategy, `readBoundary` always emits an event. -/
theorem readBoundary_isSome {σ : Type} (fb : σ → List Nat → Option Nat × σ)
    (st : ChunkStream σ) (hv : ValidFB fb) (hwf : StreamWF st)
    (hlt : st.pos < st.buf.length) :
    (ChunkStream.readBoundary fb st).1.isSome = true := by
  unfold ChunkStream.readBoundary
  split
  · rename_i split i2 hfb
    have hsp : split < (st.buf.drop st.pos).length := hv _ _ _ _ hfb
    rw [List.length_drop] at hsp
    have hguard : st.pos + split < st.buf.length := by omega
    simp [if_pos hguard]
  · simp

theorem readBoundary_some {σ : Type} (fb : σ → List Nat → Option Nat × σ)
    (st : ChunkStream σ) (e : ChunkInput) (st2 : ChunkStream σ)
    (hv : ValidFB fb) (hwf : StreamWF st) (hlt : st.pos < st.buf.length)
    (h : ChunkStream.readBoundary fb st = (some e, st2)) :
    StreamWF st2 ∧ st2.reader = st.reader ∧
    dataConcat [e] ++ pendingBytes st2 = pendingBytes st ∧
    (pendingBytes st2).length < (pendingBytes st).length := by
  unfold ChunkStream.readBoundary at h
  split at h
  · rename_i split i2 hfb
    have hsp : split < (st.buf.drop st.pos).length := hv _ _ _ _ hfb
    rw [List.length_drop] at hsp
    have hguard : st.pos + split < st.buf.length := by omega
    rw [if_pos hguard] at h
    injection h with h1 h2
    injection h1 with h1
    subst h1 h2
    refine ⟨⟨by simp; omega, hwf.2⟩, rfl, ?_, ?_⟩
    · show ((st.buf.drop st.pos).take (split + 1)) ++ [] ++ _ = _
      simp only [List.append_nil, pendingBytes]
      have hdd : st.buf.drop (st.pos + (split + 1)) = (st.buf.drop st.pos).drop (split + 1) := by
        rw [List.drop_drop]
      rw [hdd, ← List.append_assoc, List.take_append_drop]
    · simp only [pendingBytes, List.length_append, List.length_drop]
      omega
  · rename_i i2 hfb
    injection h with h1 h2
    injection h1 with h1
    subst h1 h2
    refine ⟨⟨by simp, hwf.2⟩, rfl, ?_, ?_⟩
    · show (st.buf.drop st.pos) ++ [] ++ _ = _
      simp only [List.append_nil, pendingBytes, List.drop_length, List.nil_append]
    · simp only [pendingBytes, List.length_append, List.length_drop, List.drop_length,
        List.length_nil]
      omega

theorem read_none {σ : Type} (fb : σ → List Nat → Option Nat × σ) (init : σ)
    (st st2 : ChunkStream σ) (hv : ValidFB fb) (hwf : StreamWF st)
    (h : ChunkStream.read fb init st = (none, st2)) :
    pendingBytes st = [] ∧ pendingBytes st2 = [] := by
  unfold ChunkStream.read at h
  by_cases hsp : st.status = EmitStatus.AtSplit
  · rw [if_pos hsp] at h
    injection h with h1 _
    simp at h1
  · rw [if_neg hsp] at h
    by_cases hpl : st.pos = st.buf.length
    · rw [if_pos hpl] at h
      split at h
      · rename_i hr
        by_cases hd : st.status = EmitStatus.Data
        · rw [if_pos hd] at h
          injection h with h1 _
          simp at h1
        · rw [if_neg hd] at h
          injection h with _ h2
          subst h2
          constructor
          · simp [pendingBytes, hr, hpl]
          · simp [pendingBytes, hr]
      · rename_i blk rest hr
        have hblk : ¬ blk.length = 0 := by
          have := hwf.2 blk (by rw [hr]; exact List.mem_cons_self blk rest)
          simpa [List.length_eq_zero] using this
        rw [if_neg hblk] at h
        have hs := readBoundary_isSome fb
          { st with pos := 0, buf := blk, reader := rest } hv
          ⟨by simp, fun b hb => hwf.2 b (by rw [hr]; exact List.mem_cons_of_mem blk hb)⟩
          (by simp; omega)
        rw [h] at hs
        simp at hs
    · rw [if_neg hpl] at h
      have hlt : st.pos < st.buf.length := by
        have := hwf.1
        omega
      have hs := readBoundary_isSome fb st hv hwf hlt
      rw [h] at hs
      simp at hs

theorem read_some {σ : Type} (fb : σ → List Nat → Option Nat × σ) (init : σ)
    (st : ChunkStream σ) (e : ChunkInput) (st2 : ChunkStream σ)
    (hv : ValidFB fb) (hwf : StreamWF st)
    (h : ChunkStream.read fb init st = (some e, st2)) :
    StreamWF st2 ∧ streamMeasure st2 < streamMeasure st ∧
    dataConcat [e] ++ pendingBytes st2 = pendingBytes st := by
  unfold ChunkStream.read at h
  by_cases hsp : st.status = EmitStatus.AtSplit
  · rw [if_pos hsp] at h
    injection h with h1 h2
    injection h1 with h1
    subst h1 h2
    refine ⟨⟨hwf.1, hwf.2⟩, ?_, by simp [dataConcat, pendingBytes]⟩
    simp only [streamMeasure, pendingBytes, hsp, statusW]
    omega
  · rw [if_neg hsp] at h
    by_cases hpl : st.pos = st.buf.length
    · rw [if_pos hpl] at h
      split at h
      · rename_i hr
        by_cases hd : st.status = EmitStatus.Data
        · rw [if_pos hd] at h
          injection h with h1 h2
          injection h1 with h1
          subst h1 h2
          refine ⟨⟨by simp, by simp [hr]⟩, ?_, ?_⟩
          · simp only [streamMeasure, pendingBytes, hd, statusW, hr]
            simp [hpl]
          · simp [dataConcat, pendingBytes, hr, hpl]
        · rw [if_neg hd] at h
          injection h with h1 _
          simp at h1
      · rename_i blk rest hr
        have hblk : ¬ blk.length = 0 := by
          have := hwf.2 blk (by rw [hr]; exact List.mem_cons_self blk rest)
          simpa [List.length_eq_zero] using this
        rw [if_neg hblk] at h
        have hwf2 : StreamWF { st with pos := 0, buf := blk, reader := rest } :=
          ⟨by simp, fun b hb => hwf.2 b (by rw [hr]; exact List.mem_cons_of_mem blk hb)⟩
        obtain ⟨hwfa, hrd, hcc, hlen⟩ := readBoundary_some fb _ e st2 hv hwf2
          (by simp; omega) h
        have hpb : pendingBytes { st with pos := 0, buf := blk, reader := rest } =
            pendingBytes st := by
          simp [pendingBytes, hr, hpl]
        refine ⟨hwfa, ?_, by rw [hcc, hpb]⟩
        have hw2 := statusW_le st2.status
        have hw1 := statusW_le st.status
        simp only [streamMeasure, hrd, hr]
        rw [hpb] at hlen
        simp only [List.length_cons]
        omega
    · rw [if_neg hpl] at h
      have hlt : st.pos < st.buf.length := by
        have := hwf.1
        omega
      obtain ⟨hwfa, hrd, hcc, hlen⟩ := readBoundary_some fb st e st2 hv hwf hlt h
      refine ⟨hwfa, ?_, hcc⟩
      have hw2 := statusW_le st2.status
      have hw1 := statusW_le st.status
      simp only [streamMeasure, hrd]
      omega

theorem runStream_succ_none {σ : Type} (fb : σ → List Nat → Option Nat × σ) (init : σ)
    (fuel : Nat) (st st2 : ChunkStream σ) (h : ChunkStream.read fb init st = (none, st2)) :
    runStream fb init (fuel + 1) st = ([], true, st2) := by
  show (match ChunkStream.read fb init st with
        | (none, st2) => (([] : List ChunkInput), true, st2)
        | (some e, st2) =>
          let r := runStream fb init fuel st2
          (e :: r.1, r.2)) = _
  rw [h]

theorem runStream_succ_some {σ : Type} (fb : σ → List Nat → Option Nat × σ) (init : σ)
    (fuel : Nat) (st st2 : ChunkStream σ) (e : ChunkInput)
    (h : ChunkStream.read fb init st = (some e, st2)) :
    runStream fb init (fuel + 1) st =
      (e :: (runStream fb init fuel st2).1, (runStream fb init fuel st2).2) := by
  show (match ChunkStream.read fb init st with
        | (none, st2) => (([] : List ChunkInput), true, st2)
        | (some e, st2) =>
          let r := runStream fb init fuel st2
          (e :: r.1, r.2)) = _
  rw [h]

theorem runStream_concat {σ : Type} (fb : σ → List Nat → Option Nat × σ) (init : σ)
    (hv : ValidFB fb) : ∀ (fuel : Nat) (st : ChunkStream σ), StreamWF st →
    dataConcat (runStream fb init fuel st).1 ++
        pendingBytes (runStream fb init fuel st).2.2 = pendingBytes st ∧
    ((runStream fb init fuel st).2.1 = true →
      pendingBytes (runStream fb init fuel st).2.2 = []) := by
  intro fuel
  induction fuel with
  | zero =>
    intro st hwf
    exact ⟨by simp [runStream, dataConcat], fun hd => by simp [runStream] at hd⟩
  | succ fuel ih =>
    intro st hwf
    rcases hread : ChunkStream.read fb init st with ⟨o, st2⟩
    cases o with
    | none =>
      obtain ⟨hp1, hp2⟩ := read_none fb init st st2 hv hwf hread
      rw [runStream_succ_none fb init fuel st st2 hread]
      exact ⟨by simp [dataConcat, hp1, hp2], fun _ => hp2⟩
    | some e =>
      obtain ⟨hwf2, _, hcc⟩ := read_some fb init st e st2 hv hwf hread
      obtain ⟨ih1, ih2⟩ := ih st2 hwf2
      rw [runStream_succ_some fb init fuel st st2 e hread]
      constructor
      · show dataConcat (e :: (runStream fb init fuel st2).1) ++ _ = _
        rw [dataConcat_cons, List.append_assoc, ih1, hcc]
      · exact ih2

theorem runStream_done {σ : Type} (fb : σ → List Nat → Option Nat × σ) (init : σ)
    (hv : ValidFB fb) : ∀ (fuel : Nat) (st : ChunkStream σ), StreamWF st →
    streamMeasure st < fuel → (runStream fb init fuel st).2.1 = true := by
  intro fuel
  induction fuel with
  | zero =>
    intro st hwf hm
    omega
  | succ fuel ih =>
    intro st hwf hm
    rcases hread : ChunkStream.read fb init st with ⟨o, st2⟩
    cases o with
    | none => rw [runStream_succ_none fb init fuel st st2 hread]
    | some e =>
      obtain ⟨hwf2, hmq, _⟩ := read_some fb init st e st2 hv hwf hread
      rw [runStream_succ_some fb init fuel st st2 e hread]
      exact ih st2 hwf2 (by omega)

/-! ## Correctness of the slice iterator run -/

theorem joinConsEq (a : List Nat) (l : List (List Nat)) : (a :: l).join = a ++ l.join := rfl

theorem slices_next_none {σ : Type} (fb : σ → List Nat → Option Nat × σ) (init : σ)
    (sl sl2 : Slices σ) (hv : ValidFB fb) (hwf : sl.pos ≤ sl.buffer.length)
    (h : Slices.next fb init sl = (none, sl2)) :
    sl.pos = sl.buffer.length ∧ sl2 = sl := by
  unfold Slices.next at h
  by_cases hpe : sl.pos = sl.buffer.length
  · rw [if_pos hpe] at h
    injection h with _ h2
    exact ⟨hpe, h2.symm⟩
  · rw [if_neg hpe] at h
    exfalso
    split at h
    · rename_i split i2 hfb
      have hsp : split < (sl.buffer.drop sl.pos).length := hv _ _ _ _ hfb
      rw [List.length_drop] at hsp
      have hguard : sl.pos + split < sl.buffer.length := by omega
      rw [if_pos hguard] at h
      simp at h
    · simp at h

theorem slices_next_some {σ : Type} (fb : σ → List Nat → Option Nat × σ) (init : σ)
    (sl : Slices σ) (s : List Nat) (sl2 : Slices σ) (hv : ValidFB fb)
    (hwf : sl.pos ≤ sl.buffer.length)
    (h : Slices.next fb init sl = (some s, sl2)) :
    sl2.buffer = sl.buffer ∧ sl2.pos ≤ sl.buffer.length ∧ sl.pos < sl2.pos ∧
    s ++ sl.buffer.drop sl2.pos = sl.buffer.drop sl.pos := by
  unfold Slices.next at h
  by_cases hpe : sl.pos = sl.buffer.length
  · rw [if_pos hpe] at h
    simp at h
  · rw [if_neg hpe] at h
    split at h
    · rename_i split i2 hfb
      have hsp : split < (sl.buffer.drop sl.pos).length := hv _ _ _ _ hfb
      rw [List.length_drop] at hsp
      have hguard : sl.pos + split < sl.buffer.length := by omega
      rw [if_pos hguard] at h
      injection h with h1 h2
      injection h1 with h1
      subst h1 h2
      refine ⟨rfl, by show sl.pos + (split + 1) ≤ sl.buffer.length; omega,
        by show sl.pos < sl.pos + (split + 1); omega, ?_⟩
      show (sl.buffer.drop sl.pos).take (split + 1) ++ sl.buffer.drop (sl.pos + (split + 1)) = _
      have hdd : sl.buffer.drop (sl.pos + (split + 1)) =
          (sl.buffer.drop sl.pos).drop (split + 1) := by
        rw [List.drop_drop]
      rw [hdd, List.take_append_drop]
    · rename_i i2 hfb
      injection h with h1 h2
      injection h1 with h1
      subst h1 h2
      refine ⟨rfl, by show sl.buffer.length ≤ sl.buffer.length; exact le_refl _,
        by show sl.pos < sl.buffer.length; omega, ?_⟩
      show sl.buffer.drop sl.pos ++ sl.buffer.drop sl.buffer.length = _
      rw [List.drop_length, List.append_nil]

theorem runSlices_succ_none {σ : Type} (fb : σ → List Nat → Option Nat × σ) (init : σ)
    (fuel : Nat) (sl sl2 : Slices σ) (h : Slices.next fb init sl = (none, sl2)) :
    runSlices fb init (fuel + 1) sl = ([], true, sl2) := by
  show (match Slices.next fb init sl with
        | (none, sl2) => (([] : List (List Nat)), true, sl2)
        | (some s, sl2) =>
          let r := runSlices fb init fuel sl2
          (s :: r.1, r.2)) = _
  rw [h]

theorem runSlices_succ_some {σ : Type} (fb : σ → List Nat → Option Nat × σ) (init : σ)
    (fuel : Nat) (sl sl2 : Slices σ) (s : List Nat)
    (h : Slices.next fb init sl = (some s, sl2)) :
    runSlices fb init (fuel + 1) sl =
      (s :: (runSlices fb init fuel sl2).1, (runSlices fb init fuel sl2).2) := by
  show (match Slices.next fb init sl with
        | (none, sl2) => (([] : List (List Nat)), true, sl2)
        | (some s, sl2) =>
          let r := runSlices fb init fuel sl2
          (s :: r.1, r.2)) = _
  rw [h]

theorem runSlices_concat {σ : Type} (fb : σ → List Nat → Option Nat × σ) (init : σ)
    (hv : ValidFB fb) : ∀ (fuel : Nat) (sl : Slices σ), sl.pos ≤ sl.buffer.length →
    ((runSlices fb init fuel sl).1.join ++
        (runSlices fb init fuel sl).2.2.buffer.drop (runSlices fb init fuel sl).2.2.pos =
      sl.buffer.drop sl.pos) ∧
    (runSlices fb init fuel sl).2.2.buffer = sl.buffer ∧
    ((runSlices fb init fuel sl).2.1 = true →
      (runSlices fb init fuel sl).2.2.pos = (runSlices fb init fuel sl).2.2.buffer.length) := by
  intro fuel
  induction fuel with
  | zero =>
    intro sl hwf
    exact ⟨by simp [runSlices], rfl, fun hd => by simp [runSlices] at hd⟩
  | succ fuel ih =>
    intro sl hwf
    rcases hnext : Slices.next fb init sl with ⟨o, sl2⟩
    cases o with
    | none =>
      obtain ⟨hp1, hp2⟩ := slices_next_none fb init sl sl2 hv hwf hnext
      rw [runSlices_succ_none fb init fuel sl sl2 hnext]
      subst hp2
      exact ⟨by simp, rfl, fun _ => hp1⟩
    | some s =>
      obtain ⟨hb, hle, hlt, hcc⟩ := slices_next_some fb init sl s sl2 hv hwf hnext
      obtain ⟨ih1, ih2, ih3⟩ := ih sl2 (by rw [hb]; exact hle)
      rw [runSlices_succ_some fb init fuel sl sl2 s hnext]
      refine ⟨?_, by rw [ih2, hb], ih3⟩
      show (s :: (runSlices fb init fuel sl2).1).join ++ _ = _
      rw [joinConsEq, List.append_assoc, ih1, hb, hcc]

theorem runSlices_done {σ : Type} (fb : σ → List Nat → Option Nat × σ) (init : σ)
    (hv : ValidFB fb) : ∀ (fuel : Nat) (sl : Slices σ), sl.pos ≤ sl.buffer.length →
    sl.buffer.length + 1 - sl.pos < fuel → (runSlices fb init fuel sl).2.1 = true := by
  intro fuel
  induction fuel with
  | zero =>
    intro sl hwf hm
    omega
  | succ fuel ih =>
    intro sl hwf hm
    rcases hnext : Slices.next fb init sl with ⟨o, sl2⟩
    cases o with
    | none => rw [runSlices_succ_none fb init fuel sl sl2 hnext]
    | some s =>
      obtain ⟨hb, hle, hlt, _⟩ := slices_next_some fb init sl s sl2 hv hwf hnext
      rw [runSlices_succ_some fb init fuel sl sl2 s hnext]
      exact ih sl2 (by rw [hb]; exact hle) (by rw [hb]; omega)

/-! ## SizeLimited: every emitted chunk fits in `max_size` -/

theorem chunkLens_cons (start c : Nat) (rest : List Nat) (total : Nat) :
    chunkLens start (c :: rest) total = (c + 1 - start) :: chunkLens (c + 1) rest total := rfl

theorem SL_fb_some {σ : Type} (fbI : σ → List Nat → Option Nat × σ) (hv : ValidFB fbI)
    (iS : σ) (p M k : Nat) (d : List Nat) (c2 : SizeLimited σ) (hp : p < M)
    (h : SizeLimited.find_boundary fbI ⟨iS, p, M⟩ d = (some k, c2)) :
    k < d.length ∧ k + 1 + p ≤ M := by
  simp only [SizeLimited.find_boundary] at h
  rw [if_pos hp] at h
  by_cases hd0 : d.length = 0
  · rw [if_pos hd0] at h
    simp at h
  · rw [if_neg hd0] at h
    by_cases h1 : M - p = 1
    · rw [if_pos h1] at h
      injection h with h2 _
      injection h2 with h2
      subst h2
      exact ⟨Nat.pos_of_ne_zero hd0, by omega⟩
    · rw [if_neg h1] at h
      split at h
      · rename_i pin i2 hfb
        have hlt : pin < (if M - p < d.length then d.take (M - p) else d).length :=
          hv _ _ _ _ hfb
        injection h with h2 _
        injection h2 with h2
        subst h2
        by_cases hsl : M - p < d.length
        · rw [if_pos hsl] at hlt
          rw [List.length_take] at hlt
          constructor <;> omega
        · rw [if_neg hsl] at hlt
          constructor <;> omega
      · rename_i i2 hfb
        by_cases hcov : M - p ≤ d.length
        · rw [if_pos hcov] at h
          injection h with h2 _
          injection h2 with h2
          subst h2
          constructor <;> omega
        · rw [if_neg hcov] at h
          simp at h

theorem SL_fb_none {σ : Type} (fbI : σ → List Nat → Option Nat × σ)
    (iS : σ) (p M : Nat) (d : List Nat) (c2 : SizeLimited σ) (hp : p < M)
    (h : SizeLimited.find_boundary fbI ⟨iS, p, M⟩ d = (none, c2)) :
    c2.pos = p + d.length ∧ c2.max_size = M ∧ p + d.length < M := by
  simp only [SizeLimited.find_boundary] at h
  rw [if_pos hp] at h
  by_cases hd0 : d.length = 0
  · rw [if_pos hd0] at h
    injection h with _ h2
    subst h2
    exact ⟨by show p = p + d.length; omega, rfl, by omega⟩
  · rw [if_neg hd0] at h
    by_cases h1 : M - p = 1
    · rw [if_pos h1] at h
      simp at h
    · rw [if_neg h1] at h
      split at h
      · simp at h
      · rename_i i2 hfb
        by_cases hcov : M - p ≤ d.length
        · rw [if_pos hcov] at h
          simp at h
        · rw [if_neg hcov] at h
          injection h with _ h2
          subst h2
          have hsl : ¬ M - p < d.length := by omega
          rw [if_neg hsl]
          exact ⟨rfl, rfl, by omega⟩

/-- If the inner strategy finds no boundary in the supplied slice and the view
covers the remaining allowance `left = max_size - pos` (with at least two
bytes of allowance, so the `left == 1` shortcut does not apply), `SizeLimited`
forces a cut at `left - 1`. -/
theorem SL_forced {σ : Type} (fbI : σ → List Nat → Option Nat × σ)
    (iS : σ) (p M : Nat) (d : List Nat) (i2 : σ) (hp : p < M) (h1 : ¬ M - p = 1)
    (hcov : M - p ≤ d.length)
    (hinner : fbI iS (if M - p < d.length then d.take (M - p) else d) = (none, i2)) :
    SizeLimited.find_boundary fbI ⟨iS, p, M⟩ d =
      (some (M - p - 1),
       ⟨i2, p + (if M - p < d.length then d.take (M - p) else d).length, M⟩) := by
  simp only [SizeLimited.find_boundary]
  rw [if_pos hp, if_neg (show ¬ d.length = 0 by omega), if_neg h1, hinner]
  show (if M - p ≤ d.length then
          ((some (M - p - 1) : Option Nat),
           (⟨i2, p + (if M - p < d.length then d.take (M - p) else d).length, M⟩ :
             SizeLimited σ))
        else
          (none,
           ⟨i2, p + (if M - p < d.length then d.take (M - p) else d).length, M⟩)) = _
  rw [if_pos hcov]

/-- A `SizeLimited` strategy honours the engine contract whenever the inner
strategy does. -/
theorem SL_valid {σ : Type} (fbI : σ → List Nat → Option Nat × σ) (hv : ValidFB fbI)
    (iS : σ) (p M k : Nat) (d : List Nat) (c2 : SizeLimited σ) (hp : p < M)
    (h : SizeLimited.find_boundary fbI ⟨iS, p, M⟩ d = (some k, c2)) : k < d.length :=
  (SL_fb_some fbI hv iS p M k d c2 hp h).1

theorem SL_chunkLens {σ : Type} (fbI : σ → List Nat → Option Nat × σ) (initI : σ)
    (hv : ValidFB fbI) (M : Nat) :
    ∀ (n : Nat) (frags : List (List Nat)) (iS : σ) (p base : Nat),
      frags.join.length + frags.length ≤ n → p < M → p ≤ base →
      ∀ l ∈ chunkLens (base - p)
          (runFrags (SizeLimited.find_boundary fbI) ⟨initI, 0, M⟩ ⟨iS, p, M⟩ frags base)
          (base + frags.join.length), l ≤ M := by
  intro n
  induction n with
  | zero =>
    intro frags iS p base hle hp hpb
    match frags with
    | [] =>
      rw [runFrags_nil]
      intro l hl
      simp only [chunkLens, List.join_nil, List.length_nil, Nat.add_zero] at hl
      by_cases hcmp : base - p < base
      · rw [if_pos hcmp] at hl
        simp at hl
        omega
      · rw [if_neg hcmp] at hl
        simp at hl
    | f :: rest => simp at hle
  | succ n ih =>
    intro frags iS p base hle hp hpb
    match frags with
    | [] =>
      rw [runFrags_nil]
      intro l hl
      simp only [chunkLens, List.join_nil, List.length_nil, Nat.add_zero] at hl
      by_cases hcmp : base - p < base
      · rw [if_pos hcmp] at hl
        simp at hl
        omega
      · rw [if_neg hcmp] at hl
        simp at hl
    | [] :: rest =>
      rw [runFrags_emptyfrag]
      intro l hl
      have := ih rest iS p base (by simp at hle ⊢; omega) hp hpb l
      apply this
      simpa using hl
    | (b :: bs) :: rest =>
      rcases hfb : SizeLimited.find_boundary fbI ⟨iS, p, M⟩ (b :: bs) with ⟨o, c2⟩
      cases o with
      | some k =>
        obtain ⟨hk, hbound⟩ := SL_fb_some fbI hv iS p M k (b :: bs) c2 hp hfb
        rw [runFrags_cons_some _ _ _ _ _ _ _ _ _ hfb, if_pos hk]
        intro l hl
        rw [chunkLens_cons] at hl
        simp only [List.mem_cons] at hl
        rcases hl with hl | hl
        · -- the head chunk: it ends at the cut
          have : l = base + k + 1 - (base - p) := hl
          omega
        · -- the tail: chunks after the reset
          have harith : base + k + 1 - 0 = base + k + 1 := by omega
          have htot : base + ((b :: bs) :: rest).join.length =
              (base + k + 1) + ((b :: bs).drop (k + 1) :: rest).join.length := by
            simp only [List.join_cons, List.length_append, List.length_drop]
            simp only [List.length_cons] at hk ⊢
            omega
          apply ih ((b :: bs).drop (k + 1) :: rest) initI 0 (base + k + 1)
            (by
              simp only [List.join_cons, List.length_append, List.length_drop] at hle ⊢
              simp only [List.length_cons] at hk hle ⊢
              omega)
            (by omega) (by omega) l
          rw [Nat.sub_zero]
          rw [htot] at hl
          exact hl
      | none =>
        obtain ⟨hpos, hmax, hlt⟩ := SL_fb_none fbI iS p M (b :: bs) c2 hp hfb
        rw [runFrags_cons_none _ _ _ _ _ _ _ _ hfb]
        intro l hl
        rcases c2 with ⟨i2, p2, M2⟩
        simp only [] at hpos hmax
        subst hpos hmax
        apply ih rest i2 (p + (b :: bs).length) (base + (b :: bs).length)
          (by simp at hle ⊢; omega) hlt (by omega) l
        have hstart : base + (b :: bs).length - (p + (b :: bs).length) = base - p := by
          omega
        have htot : base + ((b :: bs) :: rest).join.length =
            (base + (b :: bs).length) + rest.join.length := by
          simp [List.join_cons]
          omega
        rw [hstart]
        rw [htot] at hl
        exact hl

/-! ## The claims -/

/-- C1: for every strategy honouring the boundary contract and every reader
(which never returns an empty block before end-of-input), a complete
`ChunkStream` run finishes within the stated fuel and the concatenation of the
payloads of its `Data` events equals the full byte sequence read from the
reader; likewise a complete `Slices` run finishes and its slices concatenate
to the whole buffer. -/
theorem c1_concatenation {σ : Type} (fb : σ → List Nat → Option Nat × σ) (init : σ)
    (reader : List (List Nat)) (buffer : List Nat)
    (hv : ValidFB fb) (hr : ∀ b ∈ reader, b ≠ []) :
    (runStream fb init (streamFuel reader) (ChunkStream.start init reader)).2.1 = true ∧
    dataConcat (runStream fb init (streamFuel reader) (ChunkStream.start init reader)).1 =
      reader.join ∧
    (runSlices fb init (buffer.length + 2) (Slices.start init buffer)).2.1 = true ∧
    (runSlices fb init (buffer.length + 2) (Slices.start init buffer)).1.join = buffer := by
  have hwf : StreamWF (ChunkStream.start init reader) := ⟨Nat.le.refl, hr⟩
  have hm : streamMeasure (ChunkStream.start init reader) < streamFuel reader := by
    show 3 * reader.join.length + reader.length + 1 <
      3 * reader.join.length + reader.length + 2
    omega
  have hdone := runStream_done fb init hv (streamFuel reader)
    (ChunkStream.start init reader) hwf hm
  obtain ⟨hc1, hc2⟩ := runStream_concat fb init hv (streamFuel reader)
    (ChunkStream.start init reader) hwf
  have hsp : (Slices.start init buffer).pos ≤ (Slices.start init buffer).buffer.length :=
    Nat.zero_le _
  have hsm : (Slices.start init buffer).buffer.length + 1 - (Slices.start init buffer).pos <
      buffer.length + 2 := by
    show buffer.length + 1 - 0 < buffer.length + 2
    omega
  have hsdone := runSlices_done fb init hv (buffer.length + 2) (Slices.start init buffer)
    hsp hsm
  obtain ⟨hs1, hs2, hs3⟩ := runSlices_concat fb init hv (buffer.length + 2)
    (Slices.start init buffer) hsp
  refine ⟨hdone, ?_, hsdone, ?_⟩
  · rw [hc2 hdone, List.append_nil] at hc1
    rw [hc1]
    show ([] : List Nat) ++ reader.join = reader.join
    simp
  · rw [hs3 hsdone, List.drop_length, List.append_nil] at hs1
    rw [hs1]
    show buffer.drop 0 = buffer
    simp

/-- Witness for C1: a strategy that never cuts, a two-block reader and a
three-byte buffer. -/
theorem c1_concatenation_witness :
    dataConcat (runStream (fun (s : Unit) (_ : List Nat) => ((none : Option Nat), s)) ()
        (streamFuel [[1, 2], [3]]) (ChunkStream.start () [[1, 2], [3]])).1 =
      ([[1, 2], [3]] : List (List Nat)).join ∧
    (runSlices (fun (s : Unit) (_ : List Nat) => ((none : Option Nat), s)) ()
        (([1, 2, 3] : List Nat).length + 2) (Slices.start () [1, 2, 3])).1.join =
      [1, 2, 3] := by
  have hv : ValidFB (fun (s : Unit) (_ : List Nat) => ((none : Option Nat), s)) := by
    intro s d k s2 h
    simp at h
  have hr : ∀ b ∈ ([[1, 2], [3]] : List (List Nat)), b ≠ [] := by decide
  obtain ⟨_, h2, _, h4⟩ := c1_concatenation
    (fun (s : Unit) (_ : List Nat) => ((none : Option Nat), s)) () [[1, 2], [3]] [1, 2, 3]
    hv hr
  exact ⟨h2, h4⟩

/-- C2 counterexample: the TTTD strategy is not seam invariant.  With
divisor 4294967295, backup_divisor 1, min 1, max 3, the input 00 00 00 00 cut
after the partition [00] / [00 00 00] yields the absolute offset 3, while the
contiguous run yields 2: the forced cut returns `backup_pos`, a position
counted since the last reset, as if it were an offset into the current view. -/
theorem c2_counterexample :
    ([[0], [0, 0, 0]] : List (List Nat)).join = [0, 0, 0, 0] ∧
    runFrags TTTDChunker.find_boundary (TTTDChunker.new 4294967295 1 1 3)
        (TTTDChunker.new 4294967295 1 1 3) [[0], [0, 0, 0]] 0 ≠
      runFrags TTTDChunker.find_boundary (TTTDChunker.new 4294967295 1 1 3)
        (TTTDChunker.new 4294967295 1 1 3) [[0, 0, 0, 0]] 0 := by
  have hA : runFrags TTTDChunker.find_boundary (TTTDChunker.new 4294967295 1 1 3)
      (TTTDChunker.new 4294967295 1 1 3) [[0], [0, 0, 0]] 0 = [3] := by
    have h1 : TTTDChunker.find_boundary (TTTDChunker.new 4294967295 1 1 3) [0] =
        (none, ⟨4294967295, 1, 1, 3, 3555432349, 1, 1⟩) := rfl
    rw [runFrags_cons_none _ _ _ _ _ _ _ _ h1]
    have h2 : TTTDChunker.find_boundary
        (⟨4294967295, 1, 1, 3, 3555432349, 1, 1⟩ : TTTDChunker) [0, 0, 0] =
        (some 2, ⟨4294967295, 1, 1, 3, 3413189963, 3, 2⟩) := by decide
    rw [runFrags_cons_some _ _ _ _ _ _ _ _ _ h2,
      if_pos (show 2 < ([0, 0, 0] : List Nat).length by decide)]
    rw [show ([0, 0, 0] : List Nat).drop (2 + 1) = [] from rfl]
    rw [runFrags_emptyfrag, runFrags_nil]
    decide
  have hB : runFrags TTTDChunker.find_boundary (TTTDChunker.new 4294967295 1 1 3)
      (TTTDChunker.new 4294967295 1 1 3) [[0, 0, 0, 0]] 0 = [2] := by
    have h1 : TTTDChunker.find_boundary (TTTDChunker.new 4294967295 1 1 3) [0, 0, 0, 0] =
        (some 2, ⟨4294967295, 1, 1, 3, 3413189963, 3, 2⟩) := by decide
    rw [runFrags_cons_some _ _ _ _ _ _ _ _ _ h1,
      if_pos (show 2 < ([0, 0, 0, 0] : List Nat).length by decide)]
    rw [show ([0, 0, 0, 0] : List Nat).drop (2 + 1) = [0] from rfl]
    have h2 : TTTDChunker.find_boundary (TTTDChunker.new 4294967295 1 1 3) [0] =
        (none, ⟨4294967295, 1, 1, 3, 3555432349, 1, 1⟩) := by decide
    rw [runFrags_cons_none _ _ _ _ _ _ _ _ h2, runFrags_nil]
  rw [hA, hB]
  exact ⟨rfl, by decide⟩

/-- C2 amended: seam invariance holds for every shipped strategy except
`TTTDChunker`: for the fixed-size chunker (chunk_size at least 1), ZPAQ, Gear,
normalized-chunking Gear, MII, BFBC, AE, RAM, the maybe-optimized RAM and both
PCI variants (window at least 1, as a zero window makes the Rust code take a
remainder modulo zero or pop an empty deque), delivering the input in
fragments produces the same absolute cut offsets as one contiguous view. -/
theorem c2_amended (frags : List (List Nat)) (base : Nat) :
    (∀ N, 1 ≤ N →
      runFrags FixedSizeChunker.find_boundary (FixedSizeChunker.new N)
          (FixedSizeChunker.new N) frags base =
        runFrags FixedSizeChunker.find_boundary (FixedSizeChunker.new N)
          (FixedSizeChunker.new N) [frags.join] base) ∧
    (∀ nbits,
      runFrags ZPAQ.find_boundary (ZPAQ.new nbits) (ZPAQ.new nbits) frags base =
        runFrags ZPAQ.find_boundary (ZPAQ.new nbits) (ZPAQ.new nbits) [frags.join] base) ∧
    (∀ mask,
      runFrags GearChunker.find_boundary (GearChunker.new mask) (GearChunker.new mask)
          frags base =
        runFrags GearChunker.find_boundary (GearChunker.new mask) (GearChunker.new mask)
          [frags.join] base) ∧
    (∀ lo hi target,
      runFrags NormalizedChunkingGearChunker.find_boundary
          (NormalizedChunkingGearChunker.new lo hi target)
          (NormalizedChunkingGearChunker.new lo hi target) frags base =
        runFrags NormalizedChunkingGearChunker.find_boundary
          (NormalizedChunkingGearChunker.new lo hi target)
          (NormalizedChunkingGearChunker.new lo hi target) [frags.join] base) ∧
    (∀ t,
      runFrags MIIChunker.find_boundary (MIIChunker.new t) (MIIChunker.new t) frags base =
        runFrags MIIChunker.find_boundary (MIIChunker.new t) (MIIChunker.new t)
          [frags.join] base) ∧
    (∀ pairs m,
      runFrags BFBCChunker.find_boundary (BFBCChunker.new pairs m) (BFBCChunker.new pairs m)
          frags base =
        runFrags BFBCChunker.find_boundary (BFBCChunker.new pairs m) (BFBCChunker.new pairs m)
          [frags.join] base) ∧
    (∀ w,
      runFrags AEChunker.find_boundary (AEChunker.new w) (AEChunker.new w) frags base =
        runFrags AEChunker.find_boundary (AEChunker.new w) (AEChunker.new w)
          [frags.join] base) ∧
    (∀ w,
      runFrags RAMChunker.find_boundary (RAMChunker.new w) (RAMChunker.new w) frags base =
        runFrags RAMChunker.find_boundary (RAMChunker.new w) (RAMChunker.new w)
          [frags.join] base) ∧
    (∀ w,
      runFrags MaybeOptimizedRAMChunker.find_boundary (MaybeOptimizedRAMChunker.new w)
          (MaybeOptimizedRAMChunker.new w) frags base =
        runFrags MaybeOptimizedRAMChunker.find_boundary (MaybeOptimizedRAMChunker.new w)
          (MaybeOptimizedRAMChunker.new w) [frags.join] base) ∧
    (∀ w t, 1 ≤ w →
      runFrags PCIChunker.find_boundary (PCIChunker.new w t) (PCIChunker.new w t)
          frags base =
        runFrags PCIChunker.find_boundary (PCIChunker.new w t) (PCIChunker.new w t)
          [frags.join] base) ∧
    (∀ w t, 1 ≤ w →
      runFrags PCIChunkerNonConst.find_boundary (PCIChunkerNonConst.new w t)
          (PCIChunkerNonConst.new w t) frags base =
        runFrags PCIChunkerNonConst.find_boundary (PCIChunkerNonConst.new w t)
          (PCIChunkerNonConst.new w t) [frags.join] base) := by
  refine ⟨?_, ?_, ?_, ?_, ?_, ?_, ?_, ?_, ?_, ?_, ?_⟩
  · intro N hN
    exact seam_of_sim FixedSizeChunker.find_boundary FixedSizeChunker.step id
      (fun c => c.pos < c.chunk_size) (FixedSizeChunker.new N) simFB_FSC hN frags base
  · intro nbits
    exact seam_scanB ZPAQ.update (ZPAQ.new nbits) frags base
  · intro mask
    exact seam_scanB GearChunker.step (GearChunker.new mask) frags base
  · intro lo hi target
    exact seam_scanB NormalizedChunkingGearChunker.step
      (NormalizedChunkingGearChunker.new lo hi target) frags base
  · intro t
    exact seam_scanB MIIChunker.step (MIIChunker.new t) frags base
  · intro pairs m
    exact seam_scanB BFBCChunker.step (BFBCChunker.new pairs m) frags base
  · intro w
    exact seam_of_sim AEChunker.find_boundary AEChunker.step id (fun _ => True)
      (AEChunker.new w) simFB_AE trivial frags base
  · intro w
    exact seam_of_sim RAMChunker.find_boundary RAMChunker.step id (fun _ => True)
      (RAMChunker.new w) simFB_RAM trivial frags base
  · intro w
    exact seam_of_sim MaybeOptimizedRAMChunker.find_boundary MaybeOptimizedRAMChunker.step
      id (fun c => c.pos ≤ c.window_size) (MaybeOptimizedRAMChunker.new w) simFB_MOpt
      (Nat.zero_le _) frags base
  · intro w t _
    exact seam_scanB PCIChunker.step (PCIChunker.new w t) frags base
  · intro w t _
    exact seam_scanB PCIChunkerNonConst.step (PCIChunkerNonConst.new w t) frags base

/-- Witness for C2 amended: the fixed-size conjunct at chunk_size 2 over a
fragmented three-byte input. -/
theorem c2_amended_witness :
    runFrags FixedSizeChunker.find_boundary (FixedSizeChunker.new 2)
        (FixedSizeChunker.new 2) [[5], [6, 7]] 0 =
      runFrags FixedSizeChunker.find_boundary (FixedSizeChunker.new 2)
        (FixedSizeChunker.new 2) [([[5], [6, 7]] : List (List Nat)).join] 0 :=
  (c2_amended [[5], [6, 7]] 0).1 2 (by decide)

/-- C3: divergence witness for the event grammar.  With a reader that is
exhausted immediately, the engine's run consists of a single bare `End` with
no preceding `Data`: the initial emission status is `Data`, so the very first
end-of-input turns into a chunk terminator although no `Data` byte was ever
emitted, contradicting both `(Data+ End)*` and the rule that a terminal `End`
appears only after at least one `Data` byte since the previous `End`. -/
theorem c3_end_without_data :
    (runStream ZPAQ.find_boundary (ZPAQ.new 3) (streamFuel [])
        (ChunkStream.start (ZPAQ.new 3) [])).1 = [ChunkInput.End] ∧
    dataConcat [ChunkInput.End] = [] := ⟨rfl, rfl⟩

/-- C4: wrapping any contract-honouring strategy with `max_size M` (`M ≥ 1`,
as `Chunker::max_size` asserts `max > 0`) bounds every chunk: each entry of
the chunk-length list of a complete fragmented run is at most `M`; and when
the inner strategy declines while the view covers the remaining allowance
`left = M - pos` (with `left ≠ 1`; at `left = 1` the combinator already cuts
at offset 0 = left − 1 before consulting the inner strategy), a cut is forced
at offset `left - 1`. -/
theorem c4_size_limited {σ : Type} (fbI : σ → List Nat → Option Nat × σ)
    (hv : ValidFB fbI) (initI : σ) (M : Nat) (hM : 1 ≤ M) :
    (∀ (frags : List (List Nat)) (l : Nat),
      l ∈ chunkLens 0
          (runFrags (SizeLimited.find_boundary fbI) (SizeLimited.new initI M)
            (SizeLimited.new initI M) frags 0) frags.join.length →
      l ≤ M) ∧
    (∀ (iS i2 : σ) (p : Nat) (d : List Nat),
      p < M → M - p ≠ 1 → M - p ≤ d.length →
      fbI iS (if M - p < d.length then d.take (M - p) else d) = (none, i2) →
      (SizeLimited.find_boundary fbI ⟨iS, p, M⟩ d).1 = some (M - p - 1)) := by
  constructor
  · intro frags l hl
    have h := SL_chunkLens fbI initI hv M (frags.join.length + frags.length) frags initI 0 0
      (le_refl _) hM (Nat.le_refl 0) l
    apply h
    show l ∈ chunkLens (0 - 0)
      (runFrags (SizeLimited.find_boundary fbI) ⟨initI, 0, M⟩ ⟨initI, 0, M⟩ frags 0)
      (0 + frags.join.length)
    rw [show (0 - 0 : Nat) = 0 from rfl, Nat.zero_add]
    exact hl
  · intro iS i2 p d hp h1 hcov hinner
    rw [SL_forced fbI iS p M d i2 hp h1 hcov hinner]

/-- Witness for C4: the never-cutting strategy wrapped at max_size 3 forces a
cut at offset 2 on a four-byte view. -/
theorem c4_size_limited_witness :
    (1 : Nat) ≤ 3 ∧
    (SizeLimited.find_boundary (fun (s : Unit) (_ : List Nat) => ((none : Option Nat), s))
        ⟨(), 0, 3⟩ [1, 2, 3, 4]).1 = some (3 - 0 - 1) := by
  refine ⟨by decide, ?_⟩
  have hv : ValidFB (fun (s : Unit) (_ : List Nat) => ((none : Option Nat), s)) := by
    intro s d k s2 h
    simp at h
  exact (c4_size_limited (fun (s : Unit) (_ : List Nat) => ((none : Option Nat), s))
    hv () 3 (by decide)).2 () () 0 [1, 2, 3, 4] (by decide) (by decide) (by decide) rfl

/-- C5: the ZPAQ-like strategy with nbits 3, driven by the engine with the
33-byte input "defghijklmnopqrstuvwxyz1234567890" delivered in 8-byte reads
(buffer capacity 8), produces exactly the chunk descriptors
(0,2), (2,13), (15,13), (28,5). -/
theorem c5_zpaq_descriptors :
    chunkInfos
      (runStream ZPAQ.find_boundary (ZPAQ.new 3)
        (streamFuel [[100, 101, 102, 103, 104, 105, 106, 107],
                     [108, 109, 110, 111, 112, 113, 114, 115],
                     [116, 117, 118, 119, 120, 121, 122, 49],
                     [50, 51, 52, 53, 54, 55, 56, 57], [48]])
        (ChunkStream.start (ZPAQ.new 3)
          [[100, 101, 102, 103, 104, 105, 106, 107],
           [108, 109, 110, 111, 112, 113, 114, 115],
           [116, 117, 118, 119, 120, 121, 122, 49],
           [50, 51, 52, 53, 54, 55, 56, 57], [48]])).1 0 0 =
      [(0, 2), (2, 13), (15, 13), (28, 5)] := by
  decide

/-- C6: divergence witness for the TTTD forced cut.  With divisor 4294967295
(no regular cut), backup_divisor 1 (every eligible byte records a backup),
min 1 and max 3: on the fresh-state view 00 00 00 the backups are recorded at
view offsets 0 and 1 and the forced cut returns `backup_pos = 2` — one past
the last recorded backup byte at offset 1, because `check_hash` stores the
already-incremented `pos`.  Moreover `backup_pos` is counted since the last
reset, not relative to the current view: continuing the same state over the
fragments [00] then [00 00], the forced cut again returns 2, which is not
even inside the two-byte view. -/
theorem c6_tttd_forced_cut :
    ((TTTDChunker.find_boundary (TTTDChunker.new 4294967295 1 1 3) [0, 0, 0]).1 = some 2 ∧
      (some 2 : Option Nat) ≠ some 1) ∧
    ((TTTDChunker.find_boundary
        ((TTTDChunker.find_boundary (TTTDChunker.new 4294967295 1 1 3) [0]).2)
        [0, 0]).1 = some 2 ∧
      ¬ 2 < ([0, 0] : List Nat).length) := by
  exact ⟨⟨by decide, by decide⟩, ⟨by decide, by decide⟩⟩

/-- C7 counterexample: BFBC with pairs [(0x0A, 0x0B)] and min_chunk_size 2 on
00 0A 0B 0A 0B reports its first cut at offset 4, not 2: the guard is the
strict `pos > min_chunk_size` and the window byte is compared before it is
ingested, so at offset 2 the window still holds (0A, 0B) with pos = 2, which
the strict guard rejects. -/
theorem c7_counterexample :
    (BFBCChunker.find_boundary (BFBCChunker.new [(10, 11)] 2) [0, 10, 11, 10, 11]).1 =
      some 4 ∧ (some 4 : Option Nat) ≠ some 2 := ⟨rfl, by decide⟩

/-- C7 amended: with pairs [(0x0A, 0x0B)] and min_chunk_size 2 the complete
scan of 00 0A 0B 0A 0B emits exactly one cut, at offset 4 — the first byte
index at which `pos > min_chunk_size` holds and the pre-ingest window
(previous byte, current byte) equals a listed pair. -/
theorem c7_amended :
    runFrags BFBCChunker.find_boundary (BFBCChunker.new [(10, 11)] 2)
      (BFBCChunker.new [(10, 11)] 2) [[0, 10, 11, 10, 11]] 0 = [4] := by
  have h1 : BFBCChunker.find_boundary (BFBCChunker.new [(10, 11)] 2) [0, 10, 11, 10, 11] =
      (some 4, ⟨[(10, 11)], 2, 4, some 10⟩) := rfl
  rw [runFrags_cons_some _ _ _ _ _ _ _ _ _ h1,
    if_pos (show 4 < ([0, 10, 11, 10, 11] : List Nat).length by decide)]
  rw [show ([0, 10, 11, 10, 11] : List Nat).drop (4 + 1) = [] from rfl]
  rw [runFrags_emptyfrag, runFrags_nil]

/-- C8 counterexample: `BFBCChunker::new` performs no validation whatsoever —
with min_chunk_size = 0 (which is < 2) construction succeeds and the
resulting strategy is perfectly usable: it reports a boundary on the first
pair occurrence. -/
theorem c8_counterexample :
    (BFBCChunker.new [(10, 11)] 0).min_chunk_size = 0 ∧
    (BFBCChunker.find_boundary (BFBCChunker.new [(10, 11)] 0) [10, 11]).1 = some 1 :=
  ⟨rfl, rfl⟩

/-- C8 amended: no configuration of BFBC is rejected at construction; with
min_chunk_size 0 the strategy runs and cuts on every pair occurrence the
strict guard admits: on 0A 0B 0A 0B the full scan emits the cuts [1, 3]. -/
theorem c8_amended :
    runFrags BFBCChunker.find_boundary (BFBCChunker.new [(10, 11)] 0)
      (BFBCChunker.new [(10, 11)] 0) [[10, 11, 10, 11]] 0 = [1, 3] := by
  have h1 : BFBCChunker.find_boundary (BFBCChunker.new [(10, 11)] 0) [10, 11, 10, 11] =
      (some 1, ⟨[(10, 11)], 0, 1, some 10⟩) := rfl
  rw [runFrags_cons_some _ _ _ _ _ _ _ _ _ h1,
    if_pos (show 1 < ([10, 11, 10, 11] : List Nat).length by decide)]
  rw [show ([10, 11, 10, 11] : List Nat).drop (1 + 1) = [10, 11] from rfl]
  have h2 : BFBCChunker.find_boundary (BFBCChunker.new [(10, 11)] 0) [10, 11] =
      (some 1, ⟨[(10, 11)], 0, 1, some 10⟩) := rfl
  rw [runFrags_cons_some _ _ _ _ _ _ _ _ _ h2,
    if_pos (show 1 < ([10, 11] : List Nat).length by decide)]
  rw [show ([10, 11] : List Nat).drop (1 + 1) = [] from rfl]
  rw [runFrags_emptyfrag, runFrags_nil]

/-- C9 counterexample: RAMChunker and MaybeOptimizedRAMChunker constructed
with the same window_size 1 disagree on the input 00 00: RAM emits no cut
(its strict `window_size < pos` guard treats 2 leading bytes as the gathering
prefix) while the maybe-optimized variant fills a 1-byte window and cuts at
offset 1. -/
theorem c9_counterexample :
    runFrags RAMChunker.find_boundary (RAMChunker.new 1) (RAMChunker.new 1) [[0, 0]] 0 ≠
      runFrags MaybeOptimizedRAMChunker.find_boundary (MaybeOptimizedRAMChunker.new 1)
        (MaybeOptimizedRAMChunker.new 1) [[0, 0]] 0 := by
  have hA : runFrags RAMChunker.find_boundary (RAMChunker.new 1) (RAMChunker.new 1)
      [[0, 0]] 0 = [] := by
    have h1 : RAMChunker.find_boundary (RAMChunker.new 1) [0, 0] = (none, ⟨1, 0, 2⟩) := rfl
    rw [runFrags_cons_none _ _ _ _ _ _ _ _ h1, runFrags_nil]
  have hB : runFrags MaybeOptimizedRAMChunker.find_boundary (MaybeOptimizedRAMChunker.new 1)
      (MaybeOptimizedRAMChunker.new 1) [[0, 0]] 0 = [1] := by
    have h1 : MaybeOptimizedRAMChunker.find_boundary (MaybeOptimizedRAMChunker.new 1)
        [0, 0] = (some 1, ⟨1, 0, 1⟩) := rfl
    rw [runFrags_cons_some _ _ _ _ _ _ _ _ _ h1,
      if_pos (show 1 < ([0, 0] : List Nat).length by decide)]
    rw [show ([0, 0] : List Nat).drop (1 + 1) = [] from rfl]
    rw [runFrags_emptyfrag, runFrags_nil]
  rw [hA, hB]
  decide

/-- C9 amended: the two RAM variants agree under a window shift of one.  For
every W ≥ 1, RAMChunker with window_size W − 1 and MaybeOptimizedRAMChunker
with window_size W are byte-for-byte the same machine (both treat exactly W
leading bytes as the maximum-gathering prefix), so over any fragmented input
they produce identical cut-offset sequences with reset after each cut. -/
theorem c9_amended (W : Nat) (hW : 1 ≤ W) (frags : List (List Nat)) (base : Nat) :
    runFrags RAMChunker.find_boundary (RAMChunker.new (W - 1)) (RAMChunker.new (W - 1))
        frags base =
      runFrags MaybeOptimizedRAMChunker.find_boundary (MaybeOptimizedRAMChunker.new W)
        (MaybeOptimizedRAMChunker.new W) frags base := by
  obtain ⟨q, rfl⟩ : ∃ q, W = q + 1 := ⟨W - 1, by omega⟩
  rw [show q + 1 - 1 = q from by omega]
  have hA := runFrags_eq_cutsScan RAMChunker.find_boundary RAMChunker.step id (fun _ => True)
    (RAMChunker.new q) simFB_RAM trivial (frags.join.length + frags.length) frags
    (RAMChunker.new q) base (le_refl _) trivial
  have hB := runFrags_eq_cutsScan MaybeOptimizedRAMChunker.find_boundary
    MaybeOptimizedRAMChunker.step id (fun c => c.pos ≤ c.window_size)
    (MaybeOptimizedRAMChunker.new (q + 1)) simFB_MOpt (Nat.zero_le _)
    (frags.join.length + frags.length) frags (MaybeOptimizedRAMChunker.new (q + 1)) base
    (le_refl _) (Nat.zero_le _)
  rw [hA, hB]
  have hini : RMRel q (RAMChunker.new q) (MaybeOptimizedRAMChunker.new (q + 1)) :=
    ⟨rfl, rfl, rfl, by show (0 : Nat) = min 0 (q + 1); simp⟩
  exact cutsScan_rel RAMChunker.step MaybeOptimizedRAMChunker.step (RMRel q) (RMRel_step q)
    (RAMChunker.new q) (MaybeOptimizedRAMChunker.new (q + 1)) hini frags.join.length
    frags.join (RAMChunker.new q) (MaybeOptimizedRAMChunker.new (q + 1)) base (le_refl _)
    hini

/-- Witness for C9 amended: window 2 against window 1, over a fragmented
input that exercises both the gathering prefix and a cut. -/
theorem c9_amended_witness :
    (1 : Nat) ≤ 2 ∧
    runFrags RAMChunker.find_boundary (RAMChunker.new (2 - 1)) (RAMChunker.new (2 - 1))
        [[0], [5, 0, 6]] 0 =
      runFrags MaybeOptimizedRAMChunker.find_boundary (MaybeOptimizedRAMChunker.new 2)
        (MaybeOptimizedRAMChunker.new 2) [[0], [5, 0, 6]] 0 :=
  ⟨by decide, c9_amended 2 (by decide) [[0], [5, 0, 6]] 0⟩

/-- C10: on every state with `pos < chunk_size` (an invariant: it holds for a
fresh chunker with chunk_size ≥ 1 and is preserved by no-cut calls), a
reported fixed-size boundary equals `chunk_size - pos - 1`, lies strictly
inside the view, and satisfies `pos + 1 ≤ chunk_size`, so the `usize`
subtraction cannot underflow; with chunk_size = 0 the very first call on any
non-empty view returns the truncated value `0 - 0 - 1` while
`chunk_size < pos + 1` holds — the subtraction the Rust expression performs
underflows, so chunk_size ≥ 1 is a necessary unstated precondition of
`FixedSizeChunker::new`. -/
theorem c10_fsc :
    (∀ (c : FixedSizeChunker) (d : List Nat) (k : Nat),
      c.pos < c.chunk_size → (FixedSizeChunker.find_boundary c d).1 = some k →
      k = c.chunk_size - c.pos - 1 ∧ k < d.length ∧ c.pos + 1 ≤ c.chunk_size) ∧
    (∀ (c : FixedSizeChunker) (d : List Nat),
      c.pos < c.chunk_size → (FixedSizeChunker.find_boundary c d).1 = none →
      (FixedSizeChunker.find_boundary c d).2.pos <
        (FixedSizeChunker.find_boundary c d).2.chunk_size) ∧
    (∀ N, 1 ≤ N → (FixedSizeChunker.new N).pos < (FixedSizeChunker.new N).chunk_size) ∧
    (∀ d : List Nat, d ≠ [] →
      (FixedSizeChunker.find_boundary (FixedSizeChunker.new 0) d).1 = some (0 - 0 - 1) ∧
      (FixedSizeChunker.new 0).chunk_size < (FixedSizeChunker.new 0).pos + 1) := by
  refine ⟨?_, ?_, ?_, ?_⟩
  · rintro ⟨cs, p⟩ d k hp hk
    have hp2 : p < cs := hp
    rw [FSC_fb_eq] at hk
    by_cases hc : cs ≤ p + d.length
    · rw [if_pos hc] at hk
      simp at hk
      refine ⟨?_, ?_, ?_⟩
      · show k = cs - p - 1
        omega
      · omega
      · show p + 1 ≤ cs
        omega
    · rw [if_neg hc] at hk
      simp at hk
  · rintro ⟨cs, p⟩ d hp hn
    have hp2 : p < cs := hp
    rw [FSC_fb_eq] at hn ⊢
    by_cases hc : cs ≤ p + d.length
    · rw [if_pos hc] at hn
      simp at hn
    · rw [if_neg hc]
      show p + d.length < cs
      omega
  · intro N hN
    show 0 < N
    omega
  · intro d hd
    have hlen : 1 ≤ d.length := by
      cases d
      · simp at hd
      · simp
    constructor
    · show (FixedSizeChunker.find_boundary ⟨0, 0⟩ d).1 = some (0 - 0 - 1)
      rw [FSC_fb_eq, if_pos (Nat.zero_le _)]
    · decide

/-- Witness for C10: a reported boundary at chunk_size 2 and the underflowing
call at chunk_size 0. -/
theorem c10_fsc_witness :
    ((FixedSizeChunker.new 2).pos < (FixedSizeChunker.new 2).chunk_size) ∧
    ((1 : Nat) = (FixedSizeChunker.new 2).chunk_size - (FixedSizeChunker.new 2).pos - 1 ∧
      1 < ([7, 8] : List Nat).length ∧
      (FixedSizeChunker.new 2).pos + 1 ≤ (FixedSizeChunker.new 2).chunk_size) ∧
    (FixedSizeChunker.find_boundary (FixedSizeChunker.new 0) [9]).1 = some (0 - 0 - 1) := by
  refine ⟨by decide, ?_, ?_⟩
  · exact c10_fsc.1 (FixedSizeChunker.new 2) [7, 8] 1 (by decide) (by decide)
  · exact (c10_fsc.2.2.2 [9] (by decide)).1
